import Mathlib

/-!
Verification development for the academic reading summarizer's
context-accumulation and file-linkage subsystem.

The definitions below are a shallow embedding of the Python sources:
strings are `List Char`, regular-expression matching is modelled by
explicit backtracking matchers with Python `re` semantics (leftmost
match, greedy/lazy quantifiers as in the source patterns, ASCII
character classes), file-system scans are passed in as explicit lists,
and `datetime.now()` is an explicit `today` parameter.
-/

namespace ReadingSummarizer

/-! Character classes: ASCII models of the classes appearing in the
program's regex patterns (the program applies them to folder names and
markdown it generated itself). -/

def isWsChar (c : Char) : Bool :=
  c == ' ' || c == '\t' || c == '\n' || c == '\r' || c == Char.ofNat 11 || c == Char.ofNat 12

def isUpperChar (c : Char) : Bool := decide ('A' ≤ c ∧ c ≤ 'Z')

def isLowerChar (c : Char) : Bool := decide ('a' ≤ c ∧ c ≤ 'z')

def isAlphaChar (c : Char) : Bool := isUpperChar c || isLowerChar c

def isDigitChar (c : Char) : Bool := decide ('0' ≤ c ∧ c ≤ '9')

def isAlnumChar (c : Char) : Bool := isAlphaChar c || isDigitChar c

def upChar (c : Char) : Char := if isLowerChar c then Char.ofNat (c.toNat - 32) else c

def lowChar (c : Char) : Char := if isUpperChar c then Char.ofNat (c.toNat + 32) else c

/-! Generic string search helpers. -/

/-- Boolean test that `p` is a prefix of `cs`. -/
def leadsWith : List Char → List Char → Bool
  | [], _ => true
  | _ :: _, [] => false
  | p :: ps, c :: cs => p == c && leadsWith ps cs

/-- Index of the leftmost occurrence of `m` as a contiguous substring,
modelling Python's left-to-right regex scan for a literal. -/
def findOcc (m : List Char) : List Char → Option Nat
  | [] => if leadsWith m [] then some 0 else none
  | c :: cs => if leadsWith m (c :: cs) then some 0 else (findOcc m cs).map (· + 1)

/-- Substring test, model of Python's `needle in haystack`. -/
def containsSub (n h : List Char) : Bool := (findOcc n h).isSome

/-- Apply a match-at-position function at each position left to right and
return the first result: the model of `re.search` when only the groups
of the match are needed. -/
def searchG {β : Type} (mAt : List Char → Option β) : List Char → Option β
  | [] => mAt []
  | c :: cs =>
      match mAt (c :: cs) with
      | some r => some r
      | none => searchG mAt cs

/-- `re.search` model returning the span `(start, end)` of the leftmost
match, for matchers that report the length of the match. -/
def searchSpan (mAt : List Char → Option Nat) : List Char → Nat → Option (Nat × Nat)
  | [], i =>
      match mAt [] with
      | some n => some (i, i + n)
      | none => none
  | c :: cs, i =>
      match mAt (c :: cs) with
      | some n => some (i, i + n)
      | none => searchSpan mAt cs (i + 1)

/-- Take exactly `n` characters all satisfying `p`, returning them and the
rest; the model of a `{n}` repetition of a character class. -/
def grabN (p : Char → Bool) : Nat → List Char → Option (List Char × List Char)
  | 0, cs => some ([], cs)
  | _ + 1, [] => none
  | n + 1, c :: cs =>
      if p c then (grabN p n cs).map (fun r => (c :: r.1, r.2)) else none

/-! Context detector (`core/context_detector.py`).

`COURSE_CODE_PATTERN = ([A-Z]{3,4})\s?(\d{3,4})` with `re.IGNORECASE`,
`WEEK_PATTERN = week[-_\s]?(\d+)` with `re.IGNORECASE`,
`MODULE_PATTERN = (module|unit|section)[-_\s]?(\d+)` with `re.IGNORECASE`.
The matchers below implement the backtracking order of the Python engine:
greedy repetitions try the longest alternative first, alternations are
tried left to right, and the overall match is the leftmost one. -/

/-- Greedy `(\d{3,4})`: four digits if available, else three. -/
def digitsGroup (cs : List Char) : Option (List Char) :=
  match grabN isDigitChar 4 cs with
  | some r => some r.1
  | none =>
      match grabN isDigitChar 3 cs with
      | some r => some r.1
      | none => none

/-- Greedy `\s?(\d{3,4})`: try consuming one whitespace character first,
backtracking to the empty alternative if the digits then fail. -/
def courseTail (rest : List Char) : Option (List Char) :=
  match rest with
  | c :: rs =>
      if isWsChar c then
        match digitsGroup rs with
        | some d => some d
        | none => digitsGroup rest
      else digitsGroup rest
  | [] => none

/-- `([A-Z]{3,4})\s?(\d{3,4})` (ignore-case) with the letter count fixed
to `n`; returns the two captured groups exactly as written in the input. -/
def matchCourseWith (n : Nat) (cs : List Char) : Option (List Char × List Char) :=
  match grabN isAlphaChar n cs with
  | some (l, rest) => (courseTail rest).map (fun d => (l, d))
  | none => none

/-- Match-at-position for the course-code pattern: the greedy `{3,4}`
tries four letters, backtracking to three. -/
def matchCourseAt (cs : List Char) : Option (List Char × List Char) :=
  match matchCourseWith 4 cs with
  | some r => some r
  | none => matchCourseWith 3 cs

/-- `COURSE_CODE_PATTERN.search`, returning the groups of the leftmost
match. -/
def courseSearch (s : List Char) : Option (List Char × List Char) :=
  searchG matchCourseAt s

/-- Case-insensitive literal word: matches when the input (lowercased)
starts with `w`, returning the matched characters as written. -/
def matchWordCI : List Char → List Char → Option (List Char × List Char)
  | [], cs => some ([], cs)
  | _ :: _, [] => none
  | w :: ws, c :: cs =>
      if lowChar c == w then (matchWordCI ws cs).map (fun r => (c :: r.1, r.2))
      else none

def isSepChar (c : Char) : Bool := c == '-' || c == '_' || isWsChar c

/-- Greedy `(\d+)`: one or more digits, capturing the maximal run. -/
def digitsPlus (cs : List Char) : Option (List Char) :=
  let d := cs.takeWhile isDigitChar
  if d.isEmpty then none else some d

/-- Greedy `[-_\s]?(\d+)` with backtracking to the empty separator. -/
def sepDigits (rest : List Char) : Option (List Char) :=
  match rest with
  | c :: rs =>
      if isSepChar c then
        match digitsPlus rs with
        | some d => some d
        | none => digitsPlus rest
      else digitsPlus rest
  | [] => none

/-- Match-at-position for `week[-_\s]?(\d+)` (ignore-case). -/
def matchWeekAt (cs : List Char) : Option (List Char) :=
  match matchWordCI ['w', 'e', 'e', 'k'] cs with
  | some (_, rest) => sepDigits rest
  | none => none

def weekSearch (s : List Char) : Option (List Char) := searchG matchWeekAt s

/-- Alternation `(module|unit|section)` (ignore-case), left to right. -/
def matchModWord (cs : List Char) : Option (List Char × List Char) :=
  match matchWordCI ['m', 'o', 'd', 'u', 'l', 'e'] cs with
  | some r => some r
  | none =>
      match matchWordCI ['u', 'n', 'i', 't'] cs with
      | some r => some r
      | none => matchWordCI ['s', 'e', 'c', 't', 'i', 'o', 'n'] cs

/-- Python `str.title()` on a single word of letters. -/
def titleWord : List Char → List Char
  | [] => []
  | c :: cs => upChar c :: cs.map lowChar

/-- Match-at-position for the module pattern; the detector stores
`f"{group(1).title()} {group(2)}"`. -/
def matchModuleAt (cs : List Char) : Option (List Char) :=
  match matchModWord cs with
  | some (w, rest) => (sepDigits rest).map (fun d => titleWord w ++ ' ' :: d)
  | none => none

def moduleSearch (s : List Char) : Option (List Char) := searchG matchModuleAt s

/-- The detection result of `ContextDetector.detect_context`.  Paths are
lists of path segments (`pathlib.PurePath.parts` of the resolved,
absolute path, so the first segment is the filesystem root). -/
structure CourseContext where
  course_code : Option (List Char)
  course_name : Option (List Char)
  course_folder : Option (List (List Char))
  week : Option (List Char)
  module : Option (List Char)
  other_readings : List (List Char)
deriving Repr, DecidableEq

def emptyContext : CourseContext := ⟨none, none, none, none, none, []⟩

/-- One iteration of the detector's segment loop: fill each still-empty
slot from the current segment `p` (at reversed index `i`). -/
def detectStep (parts : List (List Char)) (i : Nat) (p : List Char)
    (ctx : CourseContext) : CourseContext :=
  let c1 :=
    if ctx.course_code.isNone then
      match courseSearch p with
      | some g =>
          { ctx with
            course_code := some (g.1 ++ g.2)
            course_name := some p
            course_folder := some (parts.take (parts.length - i)) }
      | none => ctx
    else ctx
  let c2 :=
    if c1.week.isNone then
      match weekSearch p with
      | some d => { c1 with week := some d }
      | none => c1
    else c1
  if c2.module.isNone then
    match moduleSearch p with
    | some m => { c2 with module := some m }
    | none => c2
  else c2

/-- The detector's walk over ancestor segments (closest to the file
first), stopping early once both course code and week are known; `i`
is the index in `reversed(parts)`, starting at 1 because index 0 (the
file name itself) is skipped by the source's `continue`. -/
def detectLoop (parts : List (List Char)) :
    List (List Char) → Nat → CourseContext → CourseContext
  | [], _, ctx => ctx
  | p :: rest, i, ctx =>
      let c := detectStep parts i p ctx
      if c.course_code.isSome && c.week.isSome then c
      else detectLoop parts rest (i + 1) c

/-- `Path.parent` on a parts list (the root is its own parent). -/
def pathParent (ps : List (List Char)) : List (List Char) :=
  if ps.length ≤ 1 then ps else ps.dropLast

/-- `Path.name` on a parts list (empty for the root path). -/
def pathName (ps : List (List Char)) : List Char :=
  if ps.length ≤ 1 then [] else ps.getLastD []

/-- `ContextDetector._find_course_folder`: walk up to five levels from
the file's parent looking for a directory whose name contains the course
code case-insensitively; stop at the root. -/
def findCourseFolderGo (code : List Char) : Nat → List (List Char) → Option (List (List Char))
  | 0, _ => none
  | f + 1, cur =>
      if containsSub (code.map upChar) ((pathName cur).map upChar) then some cur
      else if cur.length ≤ 1 then none
      else findCourseFolderGo code f (pathParent cur)

def findCourseFolder (code : List Char) (parts : List (List Char)) :
    Option (List (List Char)) :=
  findCourseFolderGo code 5 (pathParent parts)

/-- The two fallback stages of `detect_context` after the segment loop:
the secondary code-substring scan (only when a code is known but no
folder was bound) and the parent/grandparent fallback. -/
def resolveFolder (parts : List (List Char)) (c1 : CourseContext) : CourseContext :=
  let c2 :=
    if c1.course_folder.isNone then
      match c1.course_code with
      | some code => { c1 with course_folder := findCourseFolder code parts }
      | none => c1
    else c1
  let fallback :=
    if 3 ≤ parts.length then pathParent (pathParent parts) else pathParent parts
  if c2.course_folder.isNone then { c2 with course_folder := some fallback } else c2

/-- `ContextDetector.detect_context`. Overrides pre-fill their slots;
the sibling-readings scan is passed in as `siblings` (an explicit model
of the directory listing). -/
def detectContext (parts : List (List Char)) (courseOv weekOv : Option (List Char))
    (siblings : List (List Char)) : CourseContext :=
  let c0 : CourseContext :=
    { emptyContext with course_code := courseOv, course_name := courseOv, week := weekOv }
  let c1 := detectLoop parts (parts.reverse.drop 1) 1 c0
  { resolveFolder parts c1 with other_readings := siblings }

example :
    courseSearch ['p', 's', 'y', 'c', 'h', ' ', '1', '0', '1'] =
      some (['s', 'y', 'c', 'h'], ['1', '0', '1']) := by decide

example : weekSearch ['W', 'e', 'e', 'k', '-', '3'] = some ['3'] := by decide

/-! History manager (`core/history_manager.py`). -/

/-- A summary file found by the recursive scan: its path and its
last-modification time (`Path.stat().st_mtime`). -/
structure SummaryFile where
  path : List Char
  mtime : Nat
deriving Repr, DecidableEq

/-- Python `l[-k:]`.  For `k = 0` the slice is `l[0:]`, the whole list
(`-0 == 0`); for `0 < k ≤ len(l)` it keeps the last `k` elements; for
`k > len(l)` the start index clamps to `0` (which truncated `Nat`
subtraction models directly). -/
def sliceFromNeg {α : Type} (l : List α) (k : Nat) : List α :=
  if k = 0 then l else l.drop (l.length - k)

/-- `HistoryManager.find_previous_summaries` after the recursive
enumeration: `files` is the `rglob` result in enumeration order; the
source sorts it by modification time (Python's stable sort, modelled by
the stable `mergeSort`) and keeps the `[-max_summaries:]` slice when
there are more files than the configured maximum. -/
def findPreviousSummaries (files : List SummaryFile) (maxSummaries : Nat) :
    List SummaryFile :=
  let sorted := files.mergeSort (fun a b => a.mtime ≤ b.mtime)
  if maxSummaries < sorted.length then sliceFromNeg sorted maxSummaries else sorted

/-- The record extracted from one previous summary file. -/
structure SummaryRecord where
  week : List Char
  title : List Char
  author : List Char
  thesis : List Char
  key_concepts : List (List Char)
deriving Repr, DecidableEq

/-! Key-concept extraction (`HistoryManager._extract_key_concepts`).
The Section II "Key Terms" block is located by a large regex; the block
(capture group 1), when present, is what the term scan below receives.
The term scan is `re.findall(r"([a-zA-Z][a-zA-Z\s]+?)(?::|–|-|—)\s*", …)`:
because the separator characters are disjoint from the class
`[a-zA-Z\s]`, the lazy `+?` stops exactly at the end of the run of class
characters, which must be followed by a separator. -/

def isTermChar (c : Char) : Bool := isAlphaChar c || isWsChar c

def isTermSep (c : Char) : Bool := c == ':' || c == '–' || c == '-' || c == '—'

/-- Match-at-position for the term pattern, returning the captured group
and the total match length (group, separator and trailing `\s*`). -/
def matchTermAt (cs : List Char) : Option (List Char × Nat) :=
  match cs with
  | c :: rest =>
      if isAlphaChar c then
        let run := rest.takeWhile isTermChar
        match rest.drop run.length with
        | s :: tail =>
            if 1 ≤ run.length && isTermSep s then
              some (c :: run, 1 + run.length + 1 + (tail.takeWhile isWsChar).length)
            else none
        | [] => none
      else none
  | [] => none

/-- `re.findall` for the term pattern: scan left to right, collecting
non-overlapping matches and continuing after each match end. -/
def findTermsGo : Nat → List Char → List (List Char)
  | 0, _ => []
  | _ + 1, [] => []
  | f + 1, c :: t =>
      match matchTermAt (c :: t) with
      | some (g, n) => g :: findTermsGo f ((c :: t).drop n)
      | none => findTermsGo f t

def findTerms (cs : List Char) : List (List Char) := findTermsGo cs.length cs

/-- Python `str.strip()` (whitespace from both ends). -/
def stripWs (s : List Char) : List Char :=
  ((s.dropWhile isWsChar).reverse.dropWhile isWsChar).reverse

/-- The source's append loop (strip, keep non-empty terms shorter than 50
characters) followed by the final `[:7]` slice. -/
def extractKeyConcepts (block : Option (List Char)) : List (List Char) :=
  match block with
  | none => []
  | some termsTxt =>
      (((findTerms termsTxt).map stripWs).filter
        (fun t => !t.isEmpty && decide (t.length < 50))).take 7

/-! Per-file summary parsing (`HistoryManager._parse_summary_file`) and
the batch loop (`extract_context_from_summaries`).  File reading, the
front-matter regex with its tolerant YAML reader, the thesis regex and
the Key Terms section regex are the file's interface to the outside and
are supplied as an explicit environment; `_extract_frontmatter` already
swallows YAML errors (returning an empty mapping), and `thesisOf`
returns the empty string on absence, so in the source the only
exception that can escape into `_parse_summary_file`'s `except` is the
file read, modelled by `readText`'s `Except`. -/

structure ParseEnv where
  readText : List Char → Except (List Char) (List Char)
  frontmatter : List Char → List (List Char × List Char)
  thesisOf : List Char → List Char
  keyTermsBlock : List Char → Option (List Char)
  stemOf : List Char → List Char

def lookupKey (m : List (List Char × List Char)) (k : List Char) : Option (List Char) :=
  (m.find? (fun e => e.1 == k)).map (fun e => e.2)

def weekKey : List Char := ['w', 'e', 'e', 'k']

def titleKey : List Char := ['t', 'i', 't', 'l', 'e']

def authorKey : List Char := ['a', 'u', 't', 'h', 'o', 'r']

def unknownStr : List Char := ['U', 'n', 'k', 'n', 'o', 'w', 'n']

/-- `HistoryManager._parse_summary_file`: any failure (in the model, the
file read) is absorbed into `none`; otherwise the record is assembled
from the front matter with sentinel defaults. -/
def parseSummaryFile (env : ParseEnv) (path : List Char) : Option SummaryRecord :=
  match env.readText path with
  | .error _ => none
  | .ok content =>
      let fm := env.frontmatter content
      some
        { week := (lookupKey fm weekKey).getD unknownStr
          title := (lookupKey fm titleKey).getD (env.stemOf path)
          author := (lookupKey fm authorKey).getD unknownStr
          thesis := env.thesisOf content
          key_concepts := extractKeyConcepts (env.keyTermsBlock content) }

/-- The batch loop of `extract_context_from_summaries`: each file is
parsed independently, a failed file is skipped, successful records are
appended in input order. -/
def extractLoop (env : ParseEnv) : List (List Char) → List SummaryRecord → List SummaryRecord
  | [], acc => acc
  | p :: rest, acc =>
      match parseSummaryFile env p with
      | some c => extractLoop env rest (acc ++ [c])
      | none => extractLoop env rest acc

def extractContextFromSummaries (env : ParseEnv) (paths : List (List Char)) :
    List SummaryRecord :=
  extractLoop env paths []

/-! Master tracker (`core/master_tracker.py`).

The three footer markers rewritten by `re.sub(marker + ".*", …)`; since
`.` does not match a newline, each substitution replaces the text from a
marker occurrence to the end of its line.  `lineSub` below implements
the scan of `re.sub` directly: find the leftmost occurrence, copy the
prefix, emit the replacement, continue after the consumed line tail. -/

def luMarker : List Char :=
  ['*', 'L', 'a', 's', 't', ' ', 'U', 'p', 'd', 'a', 't', 'e', 'd', '*', ':']

def trMarker : List Char :=
  ['*', 'T', 'o', 't', 'a', 'l', ' ', 'R', 'e', 'a', 'd', 'i', 'n', 'g', 's', '*', ':']

def tcMarker : List Char :=
  ['*', 'T', 'o', 't', 'a', 'l', ' ', 'C', 'o', 'u', 'r', 's', 'e', 's', '*', ':']

/-- The remainder after one `marker + .*` match starting at the head of
`cs`: drop the marker, then everything up to (excluding) the next
newline. -/
def skipLine (m : List Char) (cs : List Char) : List Char :=
  (cs.drop m.length).dropWhile (fun c => !(c == '\n'))

/-- `re.sub(re.escape-d marker + ".*", repl, cs)`: all non-overlapping
matches, left to right.  The fuel is bounded by `cs.length`; every step
consumes at least one character because the markers are nonempty. -/
def lineSubGo (m r : List Char) : Nat → List Char → List Char
  | 0, cs => cs
  | f + 1, cs =>
      match findOcc m cs with
      | none => cs
      | some j => cs.take j ++ r ++ lineSubGo m r f (skipLine m (cs.drop j))

def lineSub (m r : List Char) (cs : List Char) : List Char := lineSubGo m r cs.length cs

/-- Decimal digit characters for rendering the recomputed counters. -/
def digitChar : Nat → Char
  | 0 => '0'
  | 1 => '1'
  | 2 => '2'
  | 3 => '3'
  | 4 => '4'
  | 5 => '5'
  | 6 => '6'
  | 7 => '7'
  | 8 => '8'
  | _ => '9'

def natDigitsGo : Nat → Nat → List Char → List Char
  | 0, _, acc => acc
  | f + 1, n, acc =>
      let acc' := digitChar (n % 10) :: acc
      if n < 10 then acc' else natDigitsGo f (n / 10) acc'

/-- Decimal rendering of a counter value (Python `str(n)` for a `Nat`). -/
def natDigits (n : Nat) : List Char := natDigitsGo (n + 1) n []

/-- `re.findall` count: scan left to right, counting non-overlapping
matches; every modelled pattern has positive match length. -/
def countFindallGo (mAt : List Char → Option Nat) : Nat → List Char → Nat
  | 0, _ => 0
  | _ + 1, [] => 0
  | f + 1, c :: t =>
      match mAt (c :: t) with
      | some n => 1 + countFindallGo mAt f ((c :: t).drop n)
      | none => countFindallGo mAt f t

def countFindall (mAt : List Char → Option Nat) (cs : List Char) : Nat :=
  countFindallGo mAt cs.length cs

/-- Match-at-position for `r"###\s+Week"`: the greedy `\s+` commits to
the maximal whitespace run (shorter alternatives are followed by another
whitespace character, never by `W`). -/
def matchWeekHeadingAt (cs : List Char) : Option Nat :=
  match cs with
  | '#' :: '#' :: '#' :: rest =>
      let w := rest.takeWhile isWsChar
      if 1 ≤ w.length && leadsWith ['W', 'e', 'e', 'k'] (rest.drop w.length) then
        some (3 + w.length + 4)
      else none
  | _ => none

/-- `len(re.findall(r"###\s+Week", content))` in `_update_footer`. -/
def countWeekHeadings (cs : List Char) : Nat := countFindall matchWeekHeadingAt cs

/-- Match-at-position for `r"\n##\s+[A-Z]"`. -/
def matchNextSectionAt (cs : List Char) : Option Nat :=
  match cs with
  | '\n' :: '#' :: '#' :: rest =>
      let w := rest.takeWhile isWsChar
      match rest.drop w.length with
      | c :: _ => if 1 ≤ w.length && isUpperChar c then some (3 + w.length + 1) else none
      | [] => none
  | _ => none

/-- Match-at-position for the literal `r"\n---\n"`. -/
def matchFooterDelimAt (cs : List Char) : Option Nat :=
  if leadsWith ['\n', '-', '-', '-', '\n'] cs then some 5 else none

/-- Greedy `\s+` before the escaped course code: try the maximal
whitespace run first, backtracking to shorter nonempty runs. -/
def findGreedyK (code : List Char) (rest : List Char) : Nat → Option Nat
  | 0 => none
  | k + 1 =>
      if leadsWith code (rest.drop (k + 1)) then some (k + 1)
      else findGreedyK code rest k

/-- Match-at-position for `rf"##\s+{re.escape(code)}"`. -/
def matchHeadingAt (code : List Char) (cs : List Char) : Option Nat :=
  match cs with
  | '#' :: '#' :: rest =>
      (findGreedyK code rest (rest.takeWhile isWsChar).length).map
        (fun k => 2 + k + code.length)
  | _ => none

/-- Match-at-position for the course-master footer pattern
`r"\n---\n\*Last Updated\*:"`. -/
def matchCourseFooterAt (cs : List Char) : Option Nat :=
  if leadsWith (['\n', '-', '-', '-', '\n'] ++ luMarker) cs then some (5 + luMarker.length)
  else none

/-- Match-at-position for `-\s+Week` (used under `re.MULTILINE` with a
`^` anchor, handled by the line-start flag of the counting scan). -/
def matchDashWeekAt (cs : List Char) : Option Nat :=
  match cs with
  | '-' :: rest =>
      let w := rest.takeWhile isWsChar
      if 1 ≤ w.length && leadsWith ['W', 'e', 'e', 'k'] (rest.drop w.length) then
        some (1 + w.length + 4)
      else none
  | _ => none

/-- `len(re.findall(r"^-\s+Week", content, re.MULTILINE))`. -/
def countDashWeekGo : Nat → Bool → List Char → Nat
  | 0, _, _ => 0
  | _ + 1, _, [] => 0
  | f + 1, atStart, c :: t =>
      if atStart then
        match matchDashWeekAt (c :: t) with
        | some n => 1 + countDashWeekGo f false ((c :: t).drop n)
        | none => countDashWeekGo f (c == '\n') t
      else countDashWeekGo f (c == '\n') t

def countDashWeek (cs : List Char) : Nat := countDashWeekGo cs.length true cs

/-- `MasterTracker._update_footer`: recount the `### Week` headings of
the current content, then rewrite the two footer lines. -/
def updateFooter (today : List Char) (content : List Char) : List Char :=
  let readingCount := countWeekHeadings content
  let c1 := lineSub luMarker (luMarker ++ ' ' :: today) content
  lineSub trMarker (trMarker ++ ' ' :: natDigits readingCount) c1

/-- `MasterTracker._update_global_footer`: recount course sections and
entry lines of the current content, then rewrite the three footer
lines. -/
def updateGlobalFooter (today : List Char) (content : List Char) : List Char :=
  let courseCount := countFindall matchNextSectionAt content
  let readingCount := countDashWeek content
  let c1 := lineSub luMarker (luMarker ++ ' ' :: today) content
  let c2 := lineSub tcMarker (tcMarker ++ ' ' :: natDigits courseCount) c1
  lineSub trMarker (trMarker ++ ' ' :: natDigits readingCount) c2

/-- `MasterTracker._update_course_master` after the entry has been
formatted: insert before the footer pattern when present, else append,
then recompute the footer. -/
def updateCourseMaster (today entry content : List Char) : List Char :=
  let ins :=
    match searchSpan matchCourseFooterAt content 0 with
    | some (s, _) => content.take s ++ '\n' :: entry ++ '\n' :: content.drop s
    | none => content ++ '\n' :: entry
  updateFooter today ins

/-- `MasterTracker._format_global_entry`:
`f"- Week {week}: [{title}]({summary_path}) - {author}"`. -/
structure SummaryData where
  week : List Char
  title : List Char
  author : List Char
  summary_path : List Char
deriving Repr, DecidableEq

def formatGlobalEntry (d : SummaryData) : List Char :=
  ['-', ' ', 'W', 'e', 'e', 'k', ' '] ++ d.week ++ [':', ' ', '['] ++ d.title ++
    [']', '('] ++ d.summary_path ++ [')', ' ', '-', ' '] ++ d.author

/-- The insertion step of `MasterTracker._update_global_master`: when
the course heading exists, the next `##` section (if any) takes priority
over the footer delimiter as insertion point; otherwise a new course
section goes before the footer delimiter (or is appended). -/
def updateGlobalBody (code entry content : List Char) : List Char :=
  match searchSpan (matchHeadingAt code) content 0 with
  | some (_, e) =>
      let tail := content.drop e
      let ip :=
        match searchSpan matchNextSectionAt tail 0 with
        | some (ns, _) => e + ns
        | none =>
            match searchSpan matchFooterDelimAt tail 0 with
            | some (fs, _) => e + fs
            | none => content.length
      content.take ip ++ '\n' :: entry ++ content.drop ip
  | none =>
      let newSection := '\n' :: '#' :: '#' :: ' ' :: code ++ '\n' :: entry ++ ['\n']
      match searchSpan matchFooterDelimAt content 0 with
      | some (fs, _) => content.take fs ++ newSection ++ content.drop fs
      | none => content ++ newSection

/-- `MasterTracker._update_global_master` on a given document content:
insertion followed by the footer recomputation. -/
def updateGlobalMaster (today code entry content : List Char) : List Char :=
  updateGlobalFooter today (updateGlobalBody code entry content)

/-- Modelled from the spec (claim C5): the same insertion step but with
the insertion point "before the next `##` heading or before the footer
delimiter, whichever comes first in the document", for comparison with
`updateGlobalBody`. -/
def specGlobalBody (code entry content : List Char) : List Char :=
  match searchSpan (matchHeadingAt code) content 0 with
  | some (_, e) =>
      let tail := content.drop e
      let ip :=
        match searchSpan matchNextSectionAt tail 0, searchSpan matchFooterDelimAt tail 0 with
        | some (ns, _), some (fs, _) => e + min ns fs
        | some (ns, _), none => e + ns
        | none, some (fs, _) => e + fs
        | none, none => content.length
      content.take ip ++ '\n' :: entry ++ content.drop ip
  | none =>
      let newSection := '\n' :: '#' :: '#' :: ' ' :: code ++ '\n' :: entry ++ ['\n']
      match searchSpan matchFooterDelimAt content 0 with
      | some (fs, _) => content.take fs ++ newSection ++ content.drop fs
      | none => content ++ newSection

/-! Orchestrator (`core/summarizer.py`, steps 8 and 9 of
`generate_summary`).  The file system is an explicit association list,
the formatted summary text and the master-file transformation are
parameters. -/

def Fs : Type := List (List Char × List Char)

def fsWrite (path content : List Char) (fs : Fs) : Fs := (path, content) :: fs

def fsRead (path : List Char) (fs : Fs) : Option (List Char) :=
  (fs.find? (fun e => e.1 == path)).map (fun e => e.2)

inductive RunError where
  | masterFile : List Char → RunError
deriving Repr, DecidableEq

/-- `MasterTracker.update_masters`: run the two document updates; any
exception is re-raised as a `MasterFileError`. -/
def updateMasters (steps : Fs → Except (List Char) Fs) (fs : Fs) : Except RunError Fs :=
  match steps fs with
  | .ok fs' => .ok fs'
  | .error e => .error (.masterFile e)

/-- Steps 8 and 9 of `AcademicSummarizer.generate_summary`: write the
summary file, then (when enabled and a course code is known) call
`update_masters` with no surrounding handler, so its error becomes the
outcome of `generate_summary`; the function returns the final file
system together with the outcome. -/
def generateSummaryPersist (fs : Fs) (outputPath formatted : List Char)
    (autoUpdateMasters courseCodeKnown : Bool)
    (masterSteps : Fs → Except (List Char) Fs) : Fs × Except RunError (List Char) :=
  let fs1 := fsWrite outputPath formatted fs
  if autoUpdateMasters && courseCodeKnown then
    match updateMasters masterSteps fs1 with
    | .ok fs2 => (fs2, .ok outputPath)
    | .error e => (fs1, .error e)
  else (fs1, .ok outputPath)

/-! Observation helpers used to state the verified properties. -/

/-- Number of positions (suffixes) of `cs` at which `p` holds. -/
def countQ (p : List Char → Bool) : List Char → Nat
  | [] => if p [] then 1 else 0
  | c :: t => (if p (c :: t) then 1 else 0) + countQ p t

/-- The heading pattern `##\s+code` matches at the head of `s`. -/
def headingTrue (code : List Char) (s : List Char) : Bool :=
  (matchHeadingAt code s).isSome

/-- Number of positions of `cs` at which the `## <code>` heading pattern
matches. -/
def countHeadings (code : List Char) (cs : List Char) : Nat :=
  countQ (headingTrue code) cs

/-- The line tail a `marker + .*` match consumes after the marker. -/
def lineTail (m : List Char) (cs : List Char) : List Char :=
  (cs.drop m.length).takeWhile (fun c => !(c == '\n'))

/-- All line tails consumed by the substitution for marker `m` in `cs`
are free of characters satisfying `bad`. -/
def tailsCleanGo (m : List Char) (bad : Char → Bool) : Nat → List Char → Bool
  | 0, _ => true
  | f + 1, cs =>
      match findOcc m cs with
      | none => true
      | some j =>
          (lineTail m (cs.drop j)).all (fun c => !(bad c)) &&
            tailsCleanGo m bad f (skipLine m (cs.drop j))

def tailsClean (m : List Char) (bad : Char → Bool) (cs : List Char) : Bool :=
  tailsCleanGo m bad cs.length cs

/-- The rest of the line after the first occurrence of marker `m`:
what a reader of the rewritten footer line sees after the marker. -/
def afterMarkerLine (m : List Char) (cs : List Char) : Option (List Char) :=
  (findOcc m cs).map (fun j => ((cs.drop j).drop m.length).takeWhile (fun c => !(c == '\n')))

/-- `mAt` matches at position `s` of `cs` with the match ending at `e`. -/
def SpanAt (mAt : List Char → Option Nat) (cs : List Char) (s e : Nat) : Prop :=
  ∃ n, mAt (cs.drop s) = some n ∧ e = s + n ∧ s ≤ cs.length

/-- `(s, e)` is the leftmost match of `mAt` in `cs`. -/
def FirstSpan (mAt : List Char → Option Nat) (cs : List Char) (s e : Nat) : Prop :=
  SpanAt mAt cs s e ∧ ∀ i, i < s → mAt (cs.drop i) = none

/-- No match of the `##\s+code` heading pattern can begin inside `X` or
extend into `X` from earlier text: no proper suffix of `code` starts
`X`, the code cannot start within `X`'s leading whitespace run or right
after it, and `X` does not start with `#`. -/
def Blocked (code X : List Char) : Prop :=
  (∀ j, 0 < j → j < code.length → leadsWith (code.drop j) X = false) ∧
  (∀ b, b ≤ (X.takeWhile isWsChar).length → leadsWith code (X.drop b) = false) ∧
  X.head? ≠ some '#'

/-- A concrete parsing environment in which reading file `g` succeeds
and reading any other file raises. -/
def demoParseEnv : ParseEnv where
  readText := fun p => if p = ['g'] then Except.ok ['x'] else Except.error ['i', 'o']
  frontmatter := fun _ => []
  thesisOf := fun _ => []
  keyTermsBlock := fun _ => none
  stemOf := fun p => p

/-- A concrete global master document with one `## ABC123` section, one
entry line and a full footer. -/
def demoGlobalDoc : List Char :=
  ['#', '#', ' ', 'A', 'B', 'C', '1', '2', '3', '\n',
   '-', ' ', 'W', 'e', 'e', 'k', ' ', '1', ':', ' ', '[', 'T', ']', '(', 'p', ')', ' ',
   '-', ' ', 'a', '\n', '\n', '-', '-', '-', '\n'] ++
  luMarker ++ [' ', 'x', '\n'] ++ tcMarker ++ [' ', '1', '\n'] ++ trMarker ++ [' ', '1', '\n']

/-- The summary metadata used by the global-master witness. -/
def demoEntryData : SummaryData := ⟨['1'], ['T'], ['a'], ['p']⟩

/-! Basic facts about the string helpers. -/

theorem leadsWith_append (p rest : List Char) : leadsWith p (p ++ rest) = true := by
  induction p with
  | nil => rfl
  | cons c t ih => simp [leadsWith, ih]

theorem leadsWith_ex : ∀ {p cs : List Char}, leadsWith p cs = true → ∃ rest, cs = p ++ rest := by
  intro p
  induction p with
  | nil => intro cs _; exact ⟨cs, rfl⟩
  | cons c t ih =>
      intro cs h
      cases cs with
      | nil => simp [leadsWith] at h
      | cons d ds =>
          simp only [leadsWith, Bool.and_eq_true, beq_iff_eq] at h
          obtain ⟨rest, hr⟩ := ih h.2
          exact ⟨rest, by simp [h.1, hr]⟩

theorem leadsWith_length : ∀ {p cs : List Char}, leadsWith p cs = true → p.length ≤ cs.length := by
  intro p cs h
  obtain ⟨rest, hr⟩ := leadsWith_ex h
  simp [hr]

theorem leadsWith_left : ∀ {p : List Char} (a b : List Char), p.length ≤ a.length →
    leadsWith p (a ++ b) = leadsWith p a := by
  intro p
  induction p with
  | nil => intro a b _; rfl
  | cons c t ih =>
      intro a b h
      cases a with
      | nil => simp at h
      | cons d ds =>
          simp only [List.cons_append, leadsWith, List.append_eq]
          rw [ih ds b (by simpa using h)]

theorem leadsWith_split : ∀ {p : List Char} (a b : List Char), a.length < p.length →
    leadsWith p (a ++ b) = (leadsWith (p.take a.length) a && leadsWith (p.drop a.length) b) := by
  intro p
  induction p with
  | nil => intro a b h; simp at h
  | cons c t ih =>
      intro a b h
      cases a with
      | nil => simp [leadsWith]
      | cons d ds =>
          simp only [List.cons_append, leadsWith, List.length_cons, List.take, List.drop,
            List.append_eq]
          rw [ih ds b (by simpa using h)]
          simp [Bool.and_assoc, leadsWith]

theorem leadsWith_nil_false {p : List Char} (hp : p ≠ []) : leadsWith p [] = false := by
  cases p with
  | nil => exact absurd rfl hp
  | cons c t => rfl

theorem leadsWith_head_ne {c d : Char} {p z : List Char} (h : ¬ c = d) :
    leadsWith (c :: p) (d :: z) = false := by
  simp [leadsWith, h]

theorem findOcc_le : ∀ {m cs : List Char} {j : Nat}, findOcc m cs = some j → j ≤ cs.length := by
  intro m cs
  induction cs with
  | nil =>
      intro j h
      simp only [findOcc] at h
      split at h
      · simp at h; omega
      · exact absurd h (by simp)
  | cons c t ih =>
      intro j h
      simp only [findOcc] at h
      split at h
      · simp at h; omega
      · cases hf : findOcc m t with
        | none => rw [hf] at h; simp at h
        | some j' =>
            rw [hf] at h
            simp at h
            have := ih hf
            simp [← h]
            omega

theorem findOcc_here : ∀ {m cs : List Char} {j : Nat}, findOcc m cs = some j →
    leadsWith m (cs.drop j) = true := by
  intro m cs
  induction cs with
  | nil =>
      intro j h
      simp only [findOcc] at h
      split at h
      · simp at h; subst h; assumption
      · exact absurd h (by simp)
  | cons c t ih =>
      intro j h
      simp only [findOcc] at h
      split at h
      · simp at h; subst h; assumption
      · cases hf : findOcc m t with
        | none => rw [hf] at h; simp at h
        | some j' =>
            rw [hf] at h
            simp at h
            subst h
            simpa using ih hf

theorem findOcc_least : ∀ {m cs : List Char} {j : Nat}, findOcc m cs = some j →
    ∀ i, i < j → leadsWith m (cs.drop i) = false := by
  intro m cs
  induction cs with
  | nil =>
      intro j h i hi
      simp only [findOcc] at h
      split at h
      · simp at h; omega
      · exact absurd h (by simp)
  | cons c t ih =>
      intro j h i hi
      simp only [findOcc] at h
      split at h
      · simp at h; omega
      · cases hf : findOcc m t with
        | none => rw [hf] at h; simp at h
        | some j' =>
            rw [hf] at h
            simp at h
            subst h
            cases i with
            | zero => simpa using (by assumption : ¬ leadsWith m (c :: t) = true)
            | succ i' => exact ih hf i' (by omega)

theorem findOcc_isSome_of : ∀ {m cs : List Char} (i : Nat),
    leadsWith m (cs.drop i) = true → (findOcc m cs).isSome = true := by
  intro m cs
  induction cs with
  | nil =>
      intro i h
      simp only [List.drop_nil] at h
      simp [findOcc, h]
  | cons c t ih =>
      intro i h
      cases i with
      | zero =>
          simp only [List.drop_zero] at h
          simp [findOcc, h]
      | succ i' =>
          simp only [List.drop_succ_cons] at h
          have h2 := ih i' h
          simp only [findOcc]
          split
          · simp
          · simpa using h2

theorem findOcc_none_all : ∀ {m cs : List Char}, findOcc m cs = none →
    ∀ i, leadsWith m (cs.drop i) = false := by
  intro m cs h i
  by_contra hc
  have h2 := findOcc_isSome_of i (by
    cases hv : leadsWith m (cs.drop i) with
    | true => rfl
    | false => exact absurd hv hc)
  rw [h] at h2
  simp at h2

/-! Facts about position counting. -/

theorem countQ_append_congr (p : List Char → Bool) (X Y : List Char)
    (h : ∀ u, p (u ++ X) = p (u ++ Y)) :
    ∀ A, countQ p (A ++ X) + countQ p Y = countQ p (A ++ Y) + countQ p X := by
  intro A
  induction A with
  | nil => simpa using Nat.add_comm (countQ p X) (countQ p Y)
  | cons c A' ih =>
      simp only [List.cons_append, countQ, List.append_eq]
      have hc := h (c :: A')
      simp only [List.cons_append] at hc
      simp only [hc]
      omega

theorem countQ_front_false (p : List Char → Bool) :
    ∀ (F Z : List Char), (∀ i, i < F.length → p (F.drop i ++ Z) = false) →
      countQ p (F ++ Z) = countQ p Z := by
  intro F
  induction F with
  | nil => intro Z _; rfl
  | cons c F' ih =>
      intro Z h
      simp only [List.cons_append, countQ, List.append_eq]
      have h0 := h 0 (by simp)
      simp only [List.drop_zero, List.cons_append] at h0
      rw [if_neg (by simp [h0])]
      simp only [Nat.zero_add]
      exact ih Z (fun i hi => by simpa using h (i + 1) (by simpa using hi))

theorem countQ_pos (p : List Char → Bool) :
    ∀ (cs : List Char) (i : Nat), p (cs.drop i) = true → 1 ≤ countQ p cs := by
  intro cs
  induction cs with
  | nil =>
      intro i h
      simp only [List.drop_nil] at h
      simp [countQ, h]
  | cons c t ih =>
      intro i h
      cases i with
      | zero =>
          simp only [List.drop_zero] at h
          simp [countQ, h]
      | succ i' =>
          simp only [List.drop_succ_cons] at h
          have := ih i' h
          simp only [countQ]
          omega

theorem countQ_exists (p : List Char → Bool) :
    ∀ (cs : List Char), 1 ≤ countQ p cs → ∃ i, p (cs.drop i) = true := by
  intro cs
  induction cs with
  | nil =>
      intro h
      simp only [countQ] at h
      refine ⟨0, ?_⟩
      by_contra hc
      rw [if_neg (by simpa using hc)] at h
      omega
  | cons c t ih =>
      intro h
      by_cases hp : p (c :: t) = true
      · exact ⟨0, hp⟩
      · simp only [countQ, if_neg hp, Nat.zero_add] at h
        obtain ⟨i, hi⟩ := ih h
        exact ⟨i + 1, by simpa using hi⟩

/-! Facts about `takeWhile` and `dropWhile`. -/

theorem tw_append_of_all {q : Char → Bool} :
    ∀ {l : List Char} (z : List Char), (∀ c ∈ l, q c = true) →
      (l ++ z).takeWhile q = l ++ z.takeWhile q := by
  intro l
  induction l with
  | nil => intro z _; rfl
  | cons c t ih =>
      intro z h
      simp only [List.cons_append, List.takeWhile_cons, h c (by simp), if_true]
      rw [ih z (fun d hd => h d (by simp [hd]))]

theorem tw_append_of_break {q : Char → Bool} :
    ∀ {l : List Char} (z : List Char), ¬ (∀ c ∈ l, q c = true) →
      (l ++ z).takeWhile q = l.takeWhile q := by
  intro l
  induction l with
  | nil => intro z h; exact absurd (by simp) h
  | cons c t ih =>
      intro z h
      by_cases hc : q c = true
      · simp only [List.cons_append, List.takeWhile_cons, hc]
        rw [ih z (fun hall => h (fun d hd => by
          rcases List.mem_cons.mp hd with h1 | h2
          · exact h1 ▸ hc
          · exact hall d h2))]
      · simp only [List.cons_append, List.takeWhile_cons]
        rw [if_neg hc, if_neg hc]

theorem tw_length_lt {q : Char → Bool} :
    ∀ {l : List Char}, ¬ (∀ c ∈ l, q c = true) → (l.takeWhile q).length < l.length := by
  intro l
  induction l with
  | nil => intro h; exact absurd (by simp) h
  | cons c t ih =>
      intro h
      by_cases hc : q c = true
      · simp only [List.takeWhile_cons, hc, if_pos rfl]
        have : ¬ ∀ d ∈ t, q d = true := fun hall => h (fun d hd => by
          rcases List.mem_cons.mp hd with h1 | h2
          · exact h1 ▸ hc
          · exact hall d h2)
        have := ih this
        simpa using this
      · simp [List.takeWhile_cons, hc]

theorem tw_prefix_all {q : Char → Bool} :
    ∀ {l : List Char} (k : Nat), k ≤ (l.takeWhile q).length →
      ∀ c ∈ l.take k, q c = true := by
  intro l
  induction l with
  | nil => intro k _ c hc; simp at hc
  | cons d t ih =>
      intro k hk c hc
      by_cases hd : q d = true
      · simp only [List.takeWhile_cons, hd, if_true, List.length_cons] at hk
        cases k with
        | zero => simp at hc
        | succ k' =>
            simp only [List.take_succ_cons, List.mem_cons] at hc
            rcases hc with h1 | h2
            · exact h1 ▸ hd
            · exact ih k' (by omega) c h2
      · simp only [List.takeWhile_cons, if_neg hd, List.length_nil] at hk
        have : k = 0 := by omega
        subst this
        simp at hc

theorem dropWhile_head {q : Char → Bool} :
    ∀ (l : List Char), l.dropWhile q = [] ∨
      ∃ c t, l.dropWhile q = c :: t ∧ q c = false := by
  intro l
  induction l with
  | nil => exact Or.inl rfl
  | cons c t ih =>
      by_cases hc : q c = true
      · simpa [List.dropWhile_cons, hc] using ih
      · exact Or.inr ⟨c, t, by simp [List.dropWhile_cons, hc], by simpa using hc⟩

/-! Fuel handling for the substitution scans. -/

theorem skipLine_length_lt {m cs : List Char} {j : Nat} (hm : m ≠ [])
    (h : findOcc m cs = some j) : (skipLine m (cs.drop j)).length < cs.length := by
  have hlead := findOcc_here h
  have hj := findOcc_le h
  have hlen := leadsWith_length hlead
  simp only [List.length_drop] at hlen
  have hm1 : 1 ≤ m.length := by
    cases m with
    | nil => exact absurd rfl hm
    | cons a b => simp
  have h1 : (skipLine m (cs.drop j)).length ≤ ((cs.drop j).drop m.length).length :=
    (List.dropWhile_sublist _).length_le
  simp only [List.length_drop] at h1
  omega

theorem lineSubGo_nil (m r : List Char) (hm : m ≠ []) :
    ∀ f, lineSubGo m r f [] = [] := by
  intro f
  cases f with
  | zero => rfl
  | succ f' =>
      simp only [lineSubGo, findOcc, leadsWith_nil_false hm]
      rfl

theorem lineSubGo_fuel (m r : List Char) (hm : m ≠ []) :
    ∀ (f g : Nat) (cs : List Char), cs.length ≤ f → cs.length ≤ g →
      lineSubGo m r f cs = lineSubGo m r g cs := by
  intro f
  induction f with
  | zero =>
      intro g cs hf _
      have : cs = [] := by
        cases cs with
        | nil => rfl
        | cons a b => simp at hf
      subst this
      rw [lineSubGo_nil m r hm 0, lineSubGo_nil m r hm g]
  | succ f' ih =>
      intro g cs hf hg
      cases g with
      | zero =>
          have : cs = [] := by
            cases cs with
            | nil => rfl
            | cons a b => simp at hg
          subst this
          rw [lineSubGo_nil m r hm (f' + 1), lineSubGo_nil m r hm 0]
      | succ g' =>
          cases hocc : findOcc m cs with
          | none => simp [lineSubGo, hocc]
          | some j =>
              have hlt := skipLine_length_lt hm hocc
              simp only [lineSubGo, hocc]
              rw [ih g' (skipLine m (cs.drop j)) (by omega) (by omega)]

theorem tailsCleanGo_fuel (m : List Char) (bad : Char → Bool) (hm : m ≠ []) :
    ∀ (f g : Nat) (cs : List Char), cs.length ≤ f → cs.length ≤ g →
      tailsCleanGo m bad f cs = tailsCleanGo m bad g cs := by
  intro f
  induction f with
  | zero =>
      intro g cs hf _
      have : cs = [] := by
        cases cs with
        | nil => rfl
        | cons a b => simp at hf
      subst this
      cases g with
      | zero => rfl
      | succ g' => simp [tailsCleanGo, findOcc, leadsWith_nil_false hm]
  | succ f' ih =>
      intro g cs hf hg
      cases g with
      | zero =>
          have : cs = [] := by
            cases cs with
            | nil => rfl
            | cons a b => simp at hg
          subst this
          simp [tailsCleanGo, findOcc, leadsWith_nil_false hm]
      | succ g' =>
          cases hocc : findOcc m cs with
          | none => simp [tailsCleanGo, hocc]
          | some j =>
              have hlt := skipLine_length_lt hm hocc
              simp only [tailsCleanGo, hocc]
              rw [ih g' (skipLine m (cs.drop j)) (by omega) (by omega)]

/-! Facts about decimal rendering. -/

theorem digitChar_digit : ∀ m : Nat, isDigitChar (digitChar m) = true := by
  intro m
  match m with
  | 0 => decide
  | 1 => decide
  | 2 => decide
  | 3 => decide
  | 4 => decide
  | 5 => decide
  | 6 => decide
  | 7 => decide
  | 8 => decide
  | n + 9 =>
      have h9 : digitChar (n + 9) = '9' := rfl
      rw [h9]
      decide

theorem natDigitsGo_digits :
    ∀ (f n : Nat) (acc : List Char), acc.all isDigitChar = true →
      (natDigitsGo f n acc).all isDigitChar = true := by
  intro f
  induction f with
  | zero => intro n acc h; exact h
  | succ f' ih =>
      intro n acc h
      simp only [natDigitsGo]
      have hd : (digitChar (n % 10) :: acc).all isDigitChar = true := by
        simp [List.all_cons, digitChar_digit, h]
      split
      · exact hd
      · exact ih (n / 10) _ hd

theorem natDigits_digits (n : Nat) : (natDigits n).all isDigitChar = true :=
  natDigitsGo_digits (n + 1) n [] rfl

theorem digit_ne_nl {c : Char} (h : isDigitChar c = true) : (c == '\n') = false := by
  by_contra hc
  have : c = '\n' := by
    cases hv : c == '\n' with
    | true => exact beq_iff_eq.mp hv
    | false => exact absurd hv hc
  subst this
  simp [isDigitChar] at h

/-! Claim C9. -/

/-- Claim C9: for every summary document content, the key-concept list
returned by key-concept extraction contains at most 7 terms, and every
returned term is strictly shorter than 50 characters (candidates of 50
or more characters are discarded by the length filter). -/
theorem extractKeyConcepts_bounds (block : Option (List Char)) :
    (extractKeyConcepts block).length ≤ 7 ∧
      ∀ t ∈ extractKeyConcepts block, t.length < 50 := by
  cases block with
  | none => simp [extractKeyConcepts]
  | some txt =>
      constructor
      · simp only [extractKeyConcepts]
        exact List.length_take_le 7
          (((findTerms txt).map stripWs).filter (fun t => !t.isEmpty && decide (t.length < 50)))
      · intro t ht
        simp only [extractKeyConcepts] at ht
        have h2 := (List.take_sublist 7 _).subset ht
        have h3 := (List.mem_filter.mp h2).2
        simp at h3
        exact h3.2

/-- Witness for claim C9 at a concrete Key Terms block. -/
theorem extractKeyConcepts_bounds_witness :
    (extractKeyConcepts (some ['f', 'o', 'o', ':', ' ', 'x'])).length ≤ 7 ∧
      ∀ t ∈ extractKeyConcepts (some ['f', 'o', 'o', ':', ' ', 'x']), t.length < 50 :=
  extractKeyConcepts_bounds (some ['f', 'o', 'o', ':', ' ', 'x'])

/-! Claim C8. -/

theorem extractLoop_eq (env : ParseEnv) :
    ∀ (paths : List (List Char)) (acc : List SummaryRecord),
      extractLoop env paths acc = acc ++ paths.filterMap (parseSummaryFile env) := by
  intro paths
  induction paths with
  | nil => intro acc; simp [extractLoop]
  | cons p rest ih =>
      intro acc
      cases hp : parseSummaryFile env p with
      | none =>
          simp only [extractLoop, hp, List.filterMap_cons]
          exact ih acc
      | some c =>
          simp only [extractLoop, hp, List.filterMap_cons]
          rw [ih (acc ++ [c])]
          simp

/-- Claim C8: extracting context from a list of summary files never
aborts the batch: the result is exactly the records of the files that
parsed successfully, in input order (a `filterMap` of the per-file
parser), and a file whose read fails parses to `none` (logged and
skipped) rather than surfacing the error. -/
theorem extractContext_skips_failures (env : ParseEnv) (paths : List (List Char)) :
    extractContextFromSummaries env paths = paths.filterMap (parseSummaryFile env) ∧
      ∀ p e, env.readText p = Except.error e → parseSummaryFile env p = none := by
  constructor
  · simpa [extractContextFromSummaries] using extractLoop_eq env paths []
  · intro p e h
    simp [parseSummaryFile, h]

/-- Witness for claim C8: one failing file and one succeeding file. -/
theorem extractContext_skips_failures_witness :
    extractContextFromSummaries demoParseEnv [['b'], ['g']] =
        List.filterMap (parseSummaryFile demoParseEnv) [['b'], ['g']] ∧
      parseSummaryFile demoParseEnv ['b'] = none :=
  ⟨(extractContext_skips_failures demoParseEnv [['b'], ['g']]).1,
   (extractContext_skips_failures demoParseEnv [['b'], ['g']]).2 ['b'] ['i', 'o'] rfl⟩

/-! Claim C1. -/

/-- Claim C1 counterexample: when the tracking-document update fails
after the summary file has been written, `generate_summary` does NOT
deliver the summary path — the `MasterFileError` propagates as its
outcome — even though the written summary file is still present in the
file-system state. -/
theorem generateSummaryPersist_counterexample :
    (generateSummaryPersist [] ['o'] ['s'] true true (fun _ => Except.error ['b'])).2 ≠
        Except.ok ['o'] ∧
      fsRead ['o'] (generateSummaryPersist [] ['o'] ['s'] true true
        (fun _ => Except.error ['b'])).1 = some ['s'] := by
  constructor
  · simp [generateSummaryPersist, updateMasters]
  · simp [generateSummaryPersist, updateMasters, fsRead, fsWrite, List.find?]

/-- Claim C1 (amended): when the tracking-document update fails, the
already-written summary file is not rolled back — it remains readable in
the final file-system state — but `generate_summary` aborts with the
distinguishable `MasterFileError` instead of returning the summary
path. -/
theorem generateSummaryPersist_error_keeps_file
    (fs : Fs) (outputPath formatted e : List Char)
    (masterSteps : Fs → Except (List Char) Fs)
    (h : masterSteps (fsWrite outputPath formatted fs) = Except.error e) :
    (generateSummaryPersist fs outputPath formatted true true masterSteps).2 =
        Except.error (RunError.masterFile e) ∧
      fsRead outputPath
          (generateSummaryPersist fs outputPath formatted true true masterSteps).1 =
        some formatted := by
  simp only [generateSummaryPersist, updateMasters, h, Bool.and_self, if_true]
  simp [fsRead, fsWrite, List.find?]

/-- Witness for the amended claim C1 at a concrete failing update. -/
theorem generateSummaryPersist_error_keeps_file_witness :
    (generateSummaryPersist [] ['p'] ['t'] true true (fun _ => Except.error ['w'])).2 =
        Except.error (RunError.masterFile ['w']) ∧
      fsRead ['p'] (generateSummaryPersist [] ['p'] ['t'] true true
        (fun _ => Except.error ['w'])).1 = some ['t'] :=
  generateSummaryPersist_error_keeps_file [] ['p'] ['t'] ['w'] (fun _ => Except.error ['w']) rfl

/-! Claim C3. -/

/-- Claim C3 (code bug at the failing input): with
`max_previous_summaries = 0` and one summary file present (more files
than the configured maximum), `find_previous_summaries` returns the
whole list instead of the zero most recent files: the Python slice
`files[-0:]` is `files[0:]`, so the truncation branch keeps
everything. -/
theorem findPreviousSummaries_maxZero_returns_all :
    findPreviousSummaries [⟨['a'], 1⟩] 0 = [⟨['a'], 1⟩] ∧
      (findPreviousSummaries [⟨['a'], 1⟩] 0).length ≠ 0 := by
  have hm : ([(⟨['a'], 1⟩ : SummaryFile)].mergeSort (fun a b => a.mtime ≤ b.mtime)) =
      [⟨['a'], 1⟩] :=
    List.Perm.eq_singleton (List.mergeSort_perm _ _)
  have h1 : findPreviousSummaries [⟨['a'], 1⟩] 0 = [⟨['a'], 1⟩] := by
    unfold findPreviousSummaries
    rw [hm]
    simp [sliceFromNeg]
  exact ⟨h1, by rw [h1]; simp⟩

/-! Detector loop: how each slot evolves. -/

theorem detectStep_course_code (parts : List (List Char)) (i : Nat) (p : List Char)
    (c : CourseContext) :
    (detectStep parts i p c).course_code =
      match c.course_code with
      | some x => some x
      | none => (courseSearch p).map (fun g => g.1 ++ g.2) := by
  unfold detectStep
  cases hc : c.course_code <;> cases hs : courseSearch p <;>
    cases hw : weekSearch p <;> cases hm : moduleSearch p <;>
      simp [hc, hs, hw, hm, apply_ite CourseContext.course_code, ite_self]

theorem detectStep_week (parts : List (List Char)) (i : Nat) (p : List Char)
    (c : CourseContext) :
    (detectStep parts i p c).week =
      match c.week with
      | some x => some x
      | none => weekSearch p := by
  unfold detectStep
  cases hc : c.course_code <;> cases hs : courseSearch p <;>
    cases hcw : c.week <;> cases hw : weekSearch p <;> cases hm : moduleSearch p <;>
      simp [hc, hs, hcw, hw, hm, apply_ite CourseContext.week, ite_self]

theorem detectStep_module (parts : List (List Char)) (i : Nat) (p : List Char)
    (c : CourseContext) :
    (detectStep parts i p c).module =
      match c.module with
      | some x => some x
      | none => moduleSearch p := by
  unfold detectStep
  cases hc : c.course_code <;> cases hs : courseSearch p <;>
    cases hcm : c.module <;> cases hw : weekSearch p <;> cases hm : moduleSearch p <;>
      simp [hc, hs, hcm, hw, hm, apply_ite CourseContext.module, ite_self]

theorem detectStep_course_folder (parts : List (List Char)) (i : Nat) (p : List Char)
    (c : CourseContext) :
    (detectStep parts i p c).course_folder =
      match c.course_code, courseSearch p with
      | none, some _ => some (parts.take (parts.length - i))
      | _, _ => c.course_folder := by
  unfold detectStep
  cases hc : c.course_code <;> cases hs : courseSearch p <;>
    cases hw : weekSearch p <;> cases hm : moduleSearch p <;>
      simp [hc, hs, hw, hm, apply_ite CourseContext.course_folder, ite_self]

theorem detectLoop_course_code (parts : List (List Char)) :
    ∀ (anc : List (List Char)) (i : Nat) (c : CourseContext),
      (detectLoop parts anc i c).course_code =
        match c.course_code with
        | some x => some x
        | none =>
            (anc.find? (fun p => (courseSearch p).isSome)).bind
              (fun p => (courseSearch p).map (fun g => g.1 ++ g.2)) := by
  intro anc
  induction anc with
  | nil => intro i c; cases hc : c.course_code <;> simp [detectLoop, hc]
  | cons p rest ih =>
      intro i c
      have hstep := detectStep_course_code parts i p c
      by_cases hb : ((detectStep parts i p c).course_code.isSome &&
          (detectStep parts i p c).week.isSome) = true
      · have hres : detectLoop parts (p :: rest) i c = detectStep parts i p c := by
          simp [detectLoop, hb]
        rw [hres, hstep]
        cases hc : c.course_code with
        | some x => rfl
        | none =>
            cases hs : courseSearch p with
            | some g => simp [List.find?_cons, hs]
            | none =>
                rw [hc, hs] at hstep
                rw [hstep] at hb
                simp at hb
      · have hres : detectLoop parts (p :: rest) i c =
            detectLoop parts rest (i + 1) (detectStep parts i p c) := by
          simp [detectLoop, hb]
        rw [hres, ih (i + 1) (detectStep parts i p c), hstep]
        cases hc : c.course_code with
        | some x => rfl
        | none =>
            cases hs : courseSearch p with
            | some g => simp [List.find?_cons, hs]
            | none => simp [List.find?_cons, hs]

theorem detectLoop_week (parts : List (List Char)) :
    ∀ (anc : List (List Char)) (i : Nat) (c : CourseContext),
      (detectLoop parts anc i c).week =
        match c.week with
        | some x => some x
        | none => ((anc.find? (fun p => (weekSearch p).isSome)).bind weekSearch) := by
  intro anc
  induction anc with
  | nil => intro i c; cases hc : c.week <;> simp [detectLoop, hc]
  | cons p rest ih =>
      intro i c
      have hstep := detectStep_week parts i p c
      by_cases hb : ((detectStep parts i p c).course_code.isSome &&
          (detectStep parts i p c).week.isSome) = true
      · have hres : detectLoop parts (p :: rest) i c = detectStep parts i p c := by
          simp [detectLoop, hb]
        rw [hres, hstep]
        cases hc : c.week with
        | some x => rfl
        | none =>
            cases hs : weekSearch p with
            | some g => simp [List.find?_cons, hs]
            | none =>
                rw [hc, hs] at hstep
                rw [hstep] at hb
                simp at hb
      · have hres : detectLoop parts (p :: rest) i c =
            detectLoop parts rest (i + 1) (detectStep parts i p c) := by
          simp [detectLoop, hb]
        rw [hres, ih (i + 1) (detectStep parts i p c), hstep]
        cases hc : c.week with
        | some x => rfl
        | none =>
            cases hs : weekSearch p with
            | some g => simp [List.find?_cons, hs]
            | none => simp [List.find?_cons, hs]

theorem detectLoop_module_some (parts : List (List Char)) :
    ∀ (anc : List (List Char)) (i : Nat) (c : CourseContext) (x : List Char),
      c.module = some x → (detectLoop parts anc i c).module = some x := by
  intro anc
  induction anc with
  | nil => intro i c x hc; simpa [detectLoop] using hc
  | cons p rest ih =>
      intro i c x hc
      have hstep := detectStep_module parts i p c
      rw [hc] at hstep
      by_cases hb : ((detectStep parts i p c).course_code.isSome &&
          (detectStep parts i p c).week.isSome) = true
      · have hres : detectLoop parts (p :: rest) i c = detectStep parts i p c := by
          simp [detectLoop, hb]
        rw [hres, hstep]
      · have hres : detectLoop parts (p :: rest) i c =
            detectLoop parts rest (i + 1) (detectStep parts i p c) := by
          simp [detectLoop, hb]
        rw [hres]
        exact ih (i + 1) (detectStep parts i p c) x hstep

theorem detectLoop_module (parts : List (List Char)) :
    ∀ (anc : List (List Char)) (i : Nat) (c : CourseContext) (m : List Char),
      c.module = none → (detectLoop parts anc i c).module = some m →
      ((anc.find? (fun p => (moduleSearch p).isSome)).bind moduleSearch) = some m := by
  intro anc
  induction anc with
  | nil =>
      intro i c m hc hres
      simp only [detectLoop] at hres
      rw [hc] at hres
      simp at hres
  | cons p rest ih =>
      intro i c m hc hres
      have hstep := detectStep_module parts i p c
      rw [hc] at hstep
      cases hs : moduleSearch p with
      | some v =>
          rw [hs] at hstep
          have hv : (detectLoop parts (p :: rest) i c).module = some v := by
            by_cases hb : ((detectStep parts i p c).course_code.isSome &&
                (detectStep parts i p c).week.isSome) = true
            · have : detectLoop parts (p :: rest) i c = detectStep parts i p c := by
                simp [detectLoop, hb]
              rw [this, hstep]
            · have hr : detectLoop parts (p :: rest) i c =
                  detectLoop parts rest (i + 1) (detectStep parts i p c) := by
                simp [detectLoop, hb]
              rw [hr]
              exact detectLoop_module_some parts rest (i + 1) _ v hstep
          rw [hv] at hres
          have hmv : m = v := by simpa using hres.symm
          subst hmv
          simp [List.find?_cons, hs]
      | none =>
          rw [hs] at hstep
          by_cases hb : ((detectStep parts i p c).course_code.isSome &&
              (detectStep parts i p c).week.isSome) = true
          · have hr : detectLoop parts (p :: rest) i c = detectStep parts i p c := by
              simp [detectLoop, hb]
            rw [hr, hstep] at hres
            simp at hres
          · have hr : detectLoop parts (p :: rest) i c =
                detectLoop parts rest (i + 1) (detectStep parts i p c) := by
              simp [detectLoop, hb]
            rw [hr] at hres
            have := ih (i + 1) (detectStep parts i p c) m hstep hres
            simpa [List.find?_cons, hs] using this

theorem detectLoop_early_stop (parts : List (List Char)) :
    ∀ (l1 l2 : List (List Char)) (i : Nat) (c : CourseContext), l1 ≠ [] →
      (detectLoop parts l1 i c).course_code.isSome = true →
      (detectLoop parts l1 i c).week.isSome = true →
      detectLoop parts (l1 ++ l2) i c = detectLoop parts l1 i c := by
  intro l1
  induction l1 with
  | nil => intro l2 i c h; exact absurd rfl h
  | cons p rest ih =>
      intro l2 i c _ hcode hweek
      by_cases hb : ((detectStep parts i p c).course_code.isSome &&
          (detectStep parts i p c).week.isSome) = true
      · simp [detectLoop, hb]
      · have hl : detectLoop parts (p :: rest) i c =
            detectLoop parts rest (i + 1) (detectStep parts i p c) := by
          simp [detectLoop, hb]
        have hrest : rest ≠ [] := by
          intro he
          subst he
          rw [hl] at hcode hweek
          simp only [detectLoop] at hcode hweek
          exact hb (by simp [hcode, hweek])
        rw [hl] at hcode hweek
        have hgoal : detectLoop parts ((p :: rest) ++ l2) i c =
            detectLoop parts (rest ++ l2) (i + 1) (detectStep parts i p c) := by
          simp [detectLoop, hb]
        rw [hgoal, hl]
        exact ih l2 (i + 1) (detectStep parts i p c) hrest hcode hweek

/-! Folder resolution after the loop. -/

theorem resolveFolder_course_code (parts : List (List Char)) (c1 : CourseContext) :
    (resolveFolder parts c1).course_code = c1.course_code := by
  unfold resolveFolder
  by_cases h1 : c1.course_folder.isNone = true <;>
    cases hk : c1.course_code <;>
      simp [h1, hk, apply_ite CourseContext.course_code, ite_self]

theorem resolveFolder_week (parts : List (List Char)) (c1 : CourseContext) :
    (resolveFolder parts c1).week = c1.week := by
  unfold resolveFolder
  by_cases h1 : c1.course_folder.isNone = true <;>
    cases hk : c1.course_code <;>
      simp [h1, hk, apply_ite CourseContext.week, ite_self]

theorem resolveFolder_module (parts : List (List Char)) (c1 : CourseContext) :
    (resolveFolder parts c1).module = c1.module := by
  unfold resolveFolder
  by_cases h1 : c1.course_folder.isNone = true <;>
    cases hk : c1.course_code <;>
      simp [h1, hk, apply_ite CourseContext.module, ite_self]

theorem resolveFolder_ne_none (parts : List (List Char)) (c1 : CourseContext) :
    (resolveFolder parts c1).course_folder ≠ none := by
  unfold resolveFolder
  by_cases h1 : c1.course_folder.isNone = true
  · cases hk : c1.course_code with
    | none => simp [h1, hk]
    | some code =>
        cases hcf : findCourseFolder code parts with
        | none => simp [h1, hk, hcf]
        | some v => simp [h1, hk, hcf]
  · cases hv : c1.course_folder with
    | none => rw [hv] at h1; simp at h1
    | some v => simp [h1, hv]

theorem resolveFolder_fallback (parts : List (List Char)) (c1 : CourseContext)
    (h1 : c1.course_folder = none)
    (h2 : (match c1.course_code with
           | some code => findCourseFolder code parts
           | none => none) = none) :
    (resolveFolder parts c1).course_folder =
      some (if 3 ≤ parts.length then pathParent (pathParent parts) else pathParent parts) := by
  unfold resolveFolder
  cases hk : c1.course_code with
  | none => simp [h1, hk]
  | some code =>
      rw [hk] at h2
      have h2' : findCourseFolder code parts = none := h2
      simp [h1, hk, h2']

theorem detectContext_course_code (parts : List (List Char)) (ovC ovW : Option (List Char))
    (sib : List (List Char)) :
    (detectContext parts ovC ovW sib).course_code =
      (detectLoop parts (parts.reverse.drop 1) 1
        { emptyContext with course_code := ovC, course_name := ovC, week := ovW }).course_code := by
  unfold detectContext
  simp [resolveFolder_course_code]

theorem detectContext_week (parts : List (List Char)) (ovC ovW : Option (List Char))
    (sib : List (List Char)) :
    (detectContext parts ovC ovW sib).week =
      (detectLoop parts (parts.reverse.drop 1) 1
        { emptyContext with course_code := ovC, course_name := ovC, week := ovW }).week := by
  unfold detectContext
  simp [resolveFolder_week]

theorem detectContext_module (parts : List (List Char)) (ovC ovW : Option (List Char))
    (sib : List (List Char)) :
    (detectContext parts ovC ovW sib).module =
      (detectLoop parts (parts.reverse.drop 1) 1
        { emptyContext with course_code := ovC, course_name := ovC, week := ovW }).module := by
  unfold detectContext
  simp [resolveFolder_module]

theorem detectContext_folder_eq (parts : List (List Char)) (ovC ovW : Option (List Char))
    (sib : List (List Char)) :
    (detectContext parts ovC ovW sib).course_folder =
      (resolveFolder parts (detectLoop parts (parts.reverse.drop 1) 1
        { emptyContext with course_code := ovC, course_name := ovC, week := ovW })).course_folder := by
  unfold detectContext
  simp

/-! Claim C4. -/

/-- Claim C4: with no overrides, each detection slot is filled by the
first ancestor segment (walking from the file's immediate parent upward,
i.e. the order of `parts.reverse.drop 1`) whose text matches the slot's
pattern: the course code is the first course-pattern match regardless of
how many non-matching segments intervene, the week is the first
week-pattern match (so of two matching ancestors the one nearer the file
wins), a filled module slot comes from the first module-pattern match,
and the walk stops early — processing no further segments — once both
course code and week are known. -/
theorem detect_slots_closest_ancestor :
    (∀ (parts sib : List (List Char)),
        (detectContext parts none none sib).course_code =
          ((parts.reverse.drop 1).find? (fun p => (courseSearch p).isSome)).bind
            (fun p => (courseSearch p).map (fun g => g.1 ++ g.2))) ∧
      (∀ (parts sib : List (List Char)),
        (detectContext parts none none sib).week =
          ((parts.reverse.drop 1).find? (fun p => (weekSearch p).isSome)).bind weekSearch) ∧
      (∀ (parts sib : List (List Char)) (m : List Char),
        (detectContext parts none none sib).module = some m →
          ((parts.reverse.drop 1).find? (fun p => (moduleSearch p).isSome)).bind moduleSearch =
            some m) ∧
      (∀ (parts l1 l2 : List (List Char)) (i : Nat) (c : CourseContext), l1 ≠ [] →
        (detectLoop parts l1 i c).course_code.isSome = true →
        (detectLoop parts l1 i c).week.isSome = true →
        detectLoop parts (l1 ++ l2) i c = detectLoop parts l1 i c) := by
  refine ⟨?_, ?_, ?_, ?_⟩
  · intro parts sib
    rw [detectContext_course_code, detectLoop_course_code]
  · intro parts sib
    rw [detectContext_week, detectLoop_week]
  · intro parts sib m h
    rw [detectContext_module] at h
    exact detectLoop_module parts (parts.reverse.drop 1) 1 _ m rfl h
  · exact fun parts => detectLoop_early_stop parts

/-- Witness for claim C4 at a concrete folder layout
`/ABC123/week2/f.pdf` (slots) and at a one-segment walk for the early
stop. -/
theorem detect_slots_closest_ancestor_witness :
    ((detectContext [['/'], ['A', 'B', 'C', '1', '2', '3'], ['w', 'e', 'e', 'k', '2'],
        ['f', '.', 'p', 'd', 'f']] none none []).course_code =
      (([['/'], ['A', 'B', 'C', '1', '2', '3'], ['w', 'e', 'e', 'k', '2'],
        ['f', '.', 'p', 'd', 'f']].reverse.drop 1).find?
          (fun p => (courseSearch p).isSome)).bind
        (fun p => (courseSearch p).map (fun g => g.1 ++ g.2))) ∧
      detectLoop [] ([['a', 'b', 'c', '1', '2', '3', 'w', 'e', 'e', 'k', '4']] ++ [['z']]) 1
          emptyContext =
        detectLoop [] [['a', 'b', 'c', '1', '2', '3', 'w', 'e', 'e', 'k', '4']] 1 emptyContext :=
  ⟨detect_slots_closest_ancestor.1 _ [],
   detect_slots_closest_ancestor.2.2.2 [] [['a', 'b', 'c', '1', '2', '3', 'w', 'e', 'e', 'k', '4']]
     [['z']] 1 emptyContext (by decide) (by decide) (by decide)⟩

/-! Claim C7. -/

/-- Claim C7: `detect_context` always resolves a course folder: for
every input path (with or without overrides) the returned
`course_folder` is non-`none`, and when the segment loop bound no
course folder and the secondary code-substring scan yields nothing, the
folder is the file's grandparent directory when the path has at least 3
segments and its parent otherwise; the model is a total function, so
detection never raises. -/
theorem detectContext_folder_total :
    ∀ (parts : List (List Char)) (ovC ovW : Option (List Char)) (sib : List (List Char)),
      ((detectContext parts ovC ovW sib).course_folder ≠ none) ∧
      ((detectLoop parts (parts.reverse.drop 1) 1
          { emptyContext with course_code := ovC, course_name := ovC, week := ovW }).course_folder = none →
        (match (detectLoop parts (parts.reverse.drop 1) 1
            { emptyContext with course_code := ovC, course_name := ovC, week := ovW }).course_code with
         | some code => findCourseFolder code parts
         | none => none) = none →
        (detectContext parts ovC ovW sib).course_folder =
          some (if 3 ≤ parts.length then pathParent (pathParent parts)
            else pathParent parts)) := by
  intro parts ovC ovW sib
  constructor
  · rw [detectContext_folder_eq]
    exact resolveFolder_ne_none parts _
  · intro h1 h2
    rw [detectContext_folder_eq]
    exact resolveFolder_fallback parts _ h1 h2

/-- Witness for claim C7 at the concrete path `/a/b.pdf` (no detectable
course code): the folder falls back to the grandparent, the root. -/
theorem detectContext_folder_total_witness :
    ((detectContext [['/'], ['a'], ['b', '.', 'p', 'd', 'f']] none none []).course_folder ≠
        none) ∧
      (detectContext [['/'], ['a'], ['b', '.', 'p', 'd', 'f']] none none []).course_folder =
        some (if 3 ≤ ([['/'], ['a'], ['b', '.', 'p', 'd', 'f']] : List (List Char)).length
          then pathParent (pathParent [['/'], ['a'], ['b', '.', 'p', 'd', 'f']])
          else pathParent [['/'], ['a'], ['b', '.', 'p', 'd', 'f']]) :=
  ⟨(detectContext_folder_total [['/'], ['a'], ['b', '.', 'p', 'd', 'f']] none none []).1,
   (detectContext_folder_total [['/'], ['a'], ['b', '.', 'p', 'd', 'f']] none none []).2
     (by decide) (by decide)⟩

/-! Claim C10: decomposition of a course-pattern match. -/

theorem grabN_split (p : Char → Bool) :
    ∀ (n : Nat) (cs l rest : List Char), grabN p n cs = some (l, rest) →
      cs = l ++ rest ∧ l.length = n ∧ ∀ c ∈ l, p c = true := by
  intro n
  induction n with
  | zero =>
      intro cs l rest h
      simp only [grabN, Option.some_inj, Prod.mk.injEq] at h
      obtain ⟨h1, h2⟩ := h
      subst h1; subst h2
      simp
  | succ n' ih =>
      intro cs l rest h
      cases cs with
      | nil => simp [grabN] at h
      | cons c cs' =>
          simp only [grabN] at h
          by_cases hp : p c = true
          · rw [if_pos hp] at h
            cases hg : grabN p n' cs' with
            | none => rw [hg] at h; simp at h
            | some pr =>
                rw [hg] at h
                simp only [Option.map_some', Option.some_inj, Prod.mk.injEq] at h
                obtain ⟨hsplit, hlen, hall⟩ := ih cs' pr.1 pr.2 (by rw [hg])
                obtain ⟨h1, h2⟩ := h
                subst h1; subst h2
                refine ⟨by simp [hsplit], by simp [hlen], ?_⟩
                intro d hd
                rcases List.mem_cons.mp hd with h1 | h2
                · exact h1 ▸ hp
                · exact hall d h2
          · rw [if_neg hp] at h; simp at h

theorem digitsGroup_split {cs d : List Char} (h : digitsGroup cs = some d) :
    ∃ rest, cs = d ++ rest ∧ (∀ c ∈ d, isDigitChar c = true) ∧
      (d.length = 4 ∨ d.length = 3) := by
  unfold digitsGroup at h
  split at h
  · rename_i pr h4
    obtain ⟨a, b⟩ := pr
    simp only [Option.some_inj] at h
    obtain ⟨hsplit, hlen, hall⟩ := grabN_split isDigitChar 4 cs a b h4
    exact ⟨b, by rw [← h, hsplit], by rw [← h]; exact hall, by rw [← h]; exact Or.inl hlen⟩
  · split at h
    · rename_i _ pr h3
      obtain ⟨a, b⟩ := pr
      simp only [Option.some_inj] at h
      obtain ⟨hsplit, hlen, hall⟩ := grabN_split isDigitChar 3 cs a b h3
      exact ⟨b, by rw [← h, hsplit], by rw [← h]; exact hall,
        by rw [← h]; exact Or.inr hlen⟩
    · exact Option.noConfusion h

theorem courseTail_split {rest d : List Char} (h : courseTail rest = some d) :
    ∃ mid r2, rest = mid ++ d ++ r2 ∧ (∀ c ∈ d, isDigitChar c = true) ∧
      (d.length = 4 ∨ d.length = 3) ∧
      (mid = [] ∨ ∃ w, isWsChar w = true ∧ mid = [w]) := by
  cases rest with
  | nil => simp [courseTail] at h
  | cons c rs =>
      simp only [courseTail] at h
      by_cases hw : isWsChar c = true
      · rw [if_pos hw] at h
        split at h
        · rename_i d' hg
          simp only [Option.some_inj] at h
          subst h
          obtain ⟨r2, hsplit, hall, hlen⟩ := digitsGroup_split hg
          exact ⟨[c], r2, by simp [hsplit], hall, hlen, Or.inr ⟨c, hw, rfl⟩⟩
        · obtain ⟨r2, hsplit, hall, hlen⟩ := digitsGroup_split h
          exact ⟨[], r2, by simpa using hsplit, hall, hlen, Or.inl rfl⟩
      · rw [if_neg hw] at h
        obtain ⟨r2, hsplit, hall, hlen⟩ := digitsGroup_split h
        exact ⟨[], r2, by simpa using hsplit, hall, hlen, Or.inl rfl⟩

theorem matchCourseWith_split {n : Nat} {cs l d : List Char}
    (h : matchCourseWith n cs = some (l, d)) :
    ∃ mid r2, cs = l ++ mid ++ d ++ r2 ∧
      (∀ c ∈ l, isAlphaChar c = true) ∧ l.length = n ∧
      (∀ c ∈ d, isDigitChar c = true) ∧ (d.length = 4 ∨ d.length = 3) ∧
      (mid = [] ∨ ∃ w, isWsChar w = true ∧ mid = [w]) := by
  unfold matchCourseWith at h
  split at h
  · rename_i a b hg
    cases ht : courseTail b with
    | none => rw [ht] at h; simp at h
    | some d' =>
        rw [ht] at h
        simp only [Option.map_some', Option.some_inj, Prod.mk.injEq] at h
        obtain ⟨h1, h2⟩ := h
        subst h1; subst h2
        obtain ⟨hsplit, hlen, hall⟩ := grabN_split isAlphaChar n cs a b hg
        obtain ⟨mid, r2, hts, hdall, hdlen, hmid⟩ := courseTail_split ht
        exact ⟨mid, r2, by rw [hsplit, hts]; simp, hall, hlen, hdall, hdlen, hmid⟩
  · exact Option.noConfusion h

theorem matchCourseAt_split {cs l d : List Char} (h : matchCourseAt cs = some (l, d)) :
    ∃ mid r2, cs = l ++ mid ++ d ++ r2 ∧
      (∀ c ∈ l, isAlphaChar c = true) ∧ (l.length = 4 ∨ l.length = 3) ∧
      (∀ c ∈ d, isDigitChar c = true) ∧ (d.length = 4 ∨ d.length = 3) ∧
      (mid = [] ∨ ∃ w, isWsChar w = true ∧ mid = [w]) := by
  unfold matchCourseAt at h
  cases h4 : matchCourseWith 4 cs with
  | some pr =>
      rw [h4] at h
      simp only [Option.some_inj] at h
      subst h
      obtain ⟨mid, r2, hs, ha, hl, hd, hdl, hm⟩ := matchCourseWith_split h4
      exact ⟨mid, r2, hs, ha, Or.inl hl, hd, hdl, hm⟩
  | none =>
      rw [h4] at h
      obtain ⟨mid, r2, hs, ha, hl, hd, hdl, hm⟩ := matchCourseWith_split h
      exact ⟨mid, r2, hs, ha, Or.inr hl, hd, hdl, hm⟩

theorem searchG_split {β : Type} (mAt : List Char → Option β) :
    ∀ (cs : List Char) (r : β), searchG mAt cs = some r → ∃ i, mAt (cs.drop i) = some r := by
  intro cs
  induction cs with
  | nil => intro r h; exact ⟨0, by simpa [searchG] using h⟩
  | cons c t ih =>
      intro r h
      simp only [searchG] at h
      cases hm : mAt (c :: t) with
      | some v =>
          rw [hm] at h
          exact ⟨0, by simpa [hm] using h⟩
      | none =>
          rw [hm] at h
          obtain ⟨i, hi⟩ := ih r h
          exact ⟨i + 1, by simpa using hi⟩

theorem courseSearch_split {s l d : List Char} (h : courseSearch s = some (l, d)) :
    ∃ pre mid post, s = pre ++ l ++ mid ++ d ++ post ∧
      (∀ c ∈ l, isAlphaChar c = true) ∧ (l.length = 4 ∨ l.length = 3) ∧
      (∀ c ∈ d, isDigitChar c = true) ∧ (d.length = 4 ∨ d.length = 3) ∧
      (mid = [] ∨ ∃ w, isWsChar w = true ∧ mid = [w]) := by
  obtain ⟨i, hi⟩ := searchG_split matchCourseAt s (l, d) h
  obtain ⟨mid, r2, hs, ha, hl, hd, hdl, hm⟩ := matchCourseAt_split hi
  refine ⟨s.take i, mid, r2, ?_, ha, hl, hd, hdl, hm⟩
  conv_lhs => rw [← List.take_append_drop i s]
  rw [hs]
  simp

/-- Claim C10 counterexample: the ancestor segment `psych 101` yields
course code `sych101`, not `psych101` — the letter group of the pattern
is capped at four characters, so the leftmost match starts at the second
letter. -/
theorem detect_code_case_counterexample :
    (detectContext [['/'], ['p', 's', 'y', 'c', 'h', ' ', '1', '0', '1'],
        ['f', '.', 'p', 'd', 'f']] none none []).course_code =
      some ['s', 'y', 'c', 'h', '1', '0', '1'] ∧
    ¬ (detectContext [['/'], ['p', 's', 'y', 'c', 'h', ' ', '1', '0', '1'],
        ['f', '.', 'p', 'd', 'f']] none none []).course_code =
      some ['p', 's', 'y', 'c', 'h', '1', '0', '1'] := by
  constructor
  · decide
  · decide

/-- Claim C10 (amended): when a course code is detected from an ancestor
segment with no override, the returned code is the matched letter group
and digit group concatenated with any single intervening whitespace
removed, both groups being literal contiguous slices of the segment as
written (the match is case-insensitive but no case mapping is applied);
the letter group has 3 or 4 characters and the digit group 3 or 4
digits, so a segment such as `psych 101` yields `sych101`, not
`PSYCH101` nor `psych101`. -/
theorem detect_code_preserves_case :
    ∀ (parts sib : List (List Char)) (code : List Char),
      (detectContext parts none none sib).course_code = some code →
      ∃ seg, seg ∈ parts.reverse.drop 1 ∧
        ∃ pre letters mid digits post,
          seg = pre ++ letters ++ mid ++ digits ++ post ∧
          code = letters ++ digits ∧
          (∀ c ∈ letters, isAlphaChar c = true) ∧ (letters.length = 4 ∨ letters.length = 3) ∧
          (∀ c ∈ digits, isDigitChar c = true) ∧ (digits.length = 4 ∨ digits.length = 3) ∧
          (mid = [] ∨ ∃ w, isWsChar w = true ∧ mid = [w]) := by
  intro parts sib code h
  rw [detectContext_course_code, detectLoop_course_code] at h
  cases hf : (parts.reverse.drop 1).find? (fun p => (courseSearch p).isSome) with
  | none => rw [hf] at h; simp at h
  | some seg =>
      rw [hf] at h
      simp only [Option.some_bind] at h
      cases hs : courseSearch seg with
      | none => rw [hs] at h; simp at h
      | some g =>
          rw [hs] at h
          simp only [Option.map_some', Option.some_inj] at h
          obtain ⟨pre, mid, post, hsplit, ha, hl, hd, hdl, hm⟩ := courseSearch_split hs
          exact ⟨seg, List.mem_of_find?_eq_some hf,
            pre, g.1, mid, g.2, post, hsplit, h.symm, ha, hl, hd, hdl, hm⟩

/-- Witness for the amended claim C10 at the folder `psych 101`. -/
theorem detect_code_preserves_case_witness :
    ∃ seg, seg ∈ ([['/'], ['p', 's', 'y', 'c', 'h', ' ', '1', '0', '1'],
        ['f', '.', 'p', 'd', 'f']] : List (List Char)).reverse.drop 1 ∧
      ∃ pre letters mid digits post,
        seg = pre ++ letters ++ mid ++ digits ++ post ∧
        ['s', 'y', 'c', 'h', '1', '0', '1'] = letters ++ digits ∧
        (∀ c ∈ letters, isAlphaChar c = true) ∧ (letters.length = 4 ∨ letters.length = 3) ∧
        (∀ c ∈ digits, isDigitChar c = true) ∧ (digits.length = 4 ∨ digits.length = 3) ∧
        (mid = [] ∨ ∃ w, isWsChar w = true ∧ mid = [w]) :=
  detect_code_preserves_case [['/'], ['p', 's', 'y', 'c', 'h', ' ', '1', '0', '1'],
    ['f', '.', 'p', 'd', 'f']] [] ['s', 'y', 'c', 'h', '1', '0', '1'] (by decide)

/-! Characterization of the span search. -/

theorem searchSpan_some {mAt : List Char → Option Nat} :
    ∀ (cs : List Char) (i s e : Nat), searchSpan mAt cs i = some (s, e) →
      i ≤ s ∧ s - i ≤ cs.length ∧ mAt (cs.drop (s - i)) = some (e - s) ∧
        ∀ d, d < s - i → mAt (cs.drop d) = none := by
  intro cs
  induction cs with
  | nil =>
      intro i s e h
      simp only [searchSpan] at h
      cases hm : mAt [] with
      | none => rw [hm] at h; exact Option.noConfusion h
      | some n =>
          rw [hm] at h
          simp only [Option.some_inj, Prod.mk.injEq] at h
          obtain ⟨h1, h2⟩ := h
          subst h1; subst h2
          refine ⟨Nat.le_refl _, by simp, ?_, ?_⟩
          · simpa using hm
          · intro d hd; omega
  | cons c t ih =>
      intro i s e h
      simp only [searchSpan] at h
      cases hm : mAt (c :: t) with
      | some n =>
          rw [hm] at h
          simp only [Option.some_inj, Prod.mk.injEq] at h
          obtain ⟨h1, h2⟩ := h
          subst h1; subst h2
          refine ⟨Nat.le_refl _, by simp, ?_, ?_⟩
          · simpa using hm
          · intro d hd; omega
      | none =>
          rw [hm] at h
          obtain ⟨ha, hb, hc, hd⟩ := ih (i + 1) s e h
          refine ⟨by omega, by simp; omega, ?_, ?_⟩
          · have : s - i = (s - (i + 1)) + 1 := by omega
            rw [this]
            simpa using hc
          · intro d hdlt
            cases d with
            | zero => simpa using hm
            | succ d' =>
                have : d' < s - (i + 1) := by omega
                simpa using hd d' this

theorem searchSpan_none_of {mAt : List Char → Option Nat} :
    ∀ (cs : List Char) (i : Nat), (∀ d, mAt (cs.drop d) = none) →
      searchSpan mAt cs i = none := by
  intro cs
  induction cs with
  | nil =>
      intro i h
      simp only [searchSpan]
      rw [show mAt [] = none from by simpa using h 0]
  | cons c t ih =>
      intro i h
      simp only [searchSpan]
      rw [show mAt (c :: t) = none from by simpa using h 0]
      exact ih (i + 1) (fun d => by simpa using h (d + 1))

theorem searchSpan_none_all {mAt : List Char → Option Nat} :
    ∀ (cs : List Char) (i : Nat), searchSpan mAt cs i = none →
      ∀ d, mAt (cs.drop d) = none := by
  intro cs
  induction cs with
  | nil =>
      intro i h d
      simp only [searchSpan] at h
      cases hm : mAt [] with
      | none => simpa using hm
      | some n => rw [hm] at h; exact Option.noConfusion h
  | cons c t ih =>
      intro i h d
      simp only [searchSpan] at h
      cases hm : mAt (c :: t) with
      | some n => rw [hm] at h; exact Option.noConfusion h
      | none =>
          rw [hm] at h
          cases d with
          | zero => simpa using hm
          | succ d' => simpa using ih (i + 1) h d'

theorem searchSpan_of_first {mAt : List Char → Option Nat} :
    ∀ (cs : List Char) (i s n : Nat), s ≤ cs.length → mAt (cs.drop s) = some n →
      (∀ d, d < s → mAt (cs.drop d) = none) →
      searchSpan mAt cs i = some (i + s, i + s + n) := by
  intro cs
  induction cs with
  | nil =>
      intro i s n hs hm _
      simp only [List.length_nil, Nat.le_zero] at hs
      subst hs
      simp only [List.drop_nil] at hm
      simp [searchSpan, hm]
  | cons c t ih =>
      intro i s n hs hm hleast
      cases s with
      | zero =>
          simp only [List.drop_zero] at hm
          simp [searchSpan, hm]
      | succ s' =>
          have h0 : mAt (c :: t) = none := by simpa using hleast 0 (by omega)
          simp only [searchSpan, h0]
          have := ih (i + 1) s' n (by simpa using hs) (by simpa using hm)
            (fun d hd => by simpa using hleast (d + 1) (by omega))
          rw [this]
          have h1 : i + 1 + s' = i + (s' + 1) := by omega
          rw [h1]

/-! Claim C5. -/

/-- Claim C5 counterexample: in a document where a footer delimiter
line appears before the next `##` heading inside the tail of the course
section, the code inserts before the next heading (the `if`/`elif`
gives it priority), not before whichever of the two comes first as the
claim states; the spec-worded variant produces a different document. -/
theorem updateGlobalBody_counterexample :
    updateGlobalBody ['A', 'B', 'C', '1', '2', '3'] ['-', ' ', 'W']
        ['#', '#', ' ', 'A', 'B', 'C', '1', '2', '3', '\n', '-', '-', '-', '\n', 'X', '\n',
          '#', '#', ' ', 'D', 'E', 'F', '4', '5', '6', '\n'] ≠
      specGlobalBody ['A', 'B', 'C', '1', '2', '3'] ['-', ' ', 'W']
        ['#', '#', ' ', 'A', 'B', 'C', '1', '2', '3', '\n', '-', '-', '-', '\n', 'X', '\n',
          '#', '#', ' ', 'D', 'E', 'F', '4', '5', '6', '\n'] := by
  decide

/-- Claim C5 (amended): when the global master contains the course
heading (leftmost match ending at `e`), the new entry line is inserted
before the first `\n##\s+[A-Z]` match after the heading whenever one
exists — regardless of whether a footer delimiter occurs earlier —
otherwise before the first `\n---\n` footer delimiter, and at document
end when neither exists; when no course heading matches anywhere, a new
course section (heading, entry and trailing newline) is inserted before
the first footer delimiter, or appended at document end if there is
none. -/
theorem updateGlobalBody_insertion :
    ∀ (code entry content : List Char),
      (∀ (s e : Nat), FirstSpan (matchHeadingAt code) content s e →
        ((∀ ns nse, FirstSpan matchNextSectionAt (content.drop e) ns nse →
            updateGlobalBody code entry content =
              content.take (e + ns) ++ '\n' :: entry ++ content.drop (e + ns)) ∧
         ((∀ d, matchNextSectionAt ((content.drop e).drop d) = none) →
            ∀ fs fe, FirstSpan matchFooterDelimAt (content.drop e) fs fe →
              updateGlobalBody code entry content =
                content.take (e + fs) ++ '\n' :: entry ++ content.drop (e + fs)) ∧
         ((∀ d, matchNextSectionAt ((content.drop e).drop d) = none) →
            (∀ d, matchFooterDelimAt ((content.drop e).drop d) = none) →
            updateGlobalBody code entry content = content ++ '\n' :: entry))) ∧
      ((∀ d, matchHeadingAt code (content.drop d) = none) →
        ((∀ fs fe, FirstSpan matchFooterDelimAt content fs fe →
            updateGlobalBody code entry content =
              content.take fs ++
                ('\n' :: '#' :: '#' :: ' ' :: code ++ '\n' :: entry ++ ['\n']) ++
                content.drop fs) ∧
         ((∀ d, matchFooterDelimAt (content.drop d) = none) →
            updateGlobalBody code entry content =
              content ++ '\n' :: '#' :: '#' :: ' ' :: code ++ '\n' :: entry ++ ['\n']))) := by
  intro code entry content
  constructor
  · intro s e hfirst
    obtain ⟨⟨n, hm, he, hsle⟩, hleast⟩ := hfirst
    have hsearch : searchSpan (matchHeadingAt code) content 0 = some (s, e) := by
      have := searchSpan_of_first content 0 s n hsle hm (fun d hd => hleast d hd)
      simpa [he] using this
    refine ⟨?_, ?_, ?_⟩
    · intro ns nse hns
      obtain ⟨⟨n2, hm2, he2, hsle2⟩, hleast2⟩ := hns
      have hs2 : searchSpan matchNextSectionAt (content.drop e) 0 = some (ns, nse) := by
        have := searchSpan_of_first (content.drop e) 0 ns n2 hsle2 hm2
          (fun d hd => hleast2 d hd)
        simpa [he2] using this
      unfold updateGlobalBody
      simp only [hsearch, hs2]
    · intro hnone fs fe hft
      obtain ⟨⟨n3, hm3, he3, hsle3⟩, hleast3⟩ := hft
      have hs3 : searchSpan matchFooterDelimAt (content.drop e) 0 = some (fs, fe) := by
        have := searchSpan_of_first (content.drop e) 0 fs n3 hsle3 hm3
          (fun d hd => hleast3 d hd)
        simpa [he3] using this
      have hsn : searchSpan matchNextSectionAt (content.drop e) 0 = none :=
        searchSpan_none_of (content.drop e) 0 hnone
      unfold updateGlobalBody
      simp only [hsearch, hsn, hs3]
    · intro hnone1 hnone2
      have hsn : searchSpan matchNextSectionAt (content.drop e) 0 = none :=
        searchSpan_none_of (content.drop e) 0 hnone1
      have hsf : searchSpan matchFooterDelimAt (content.drop e) 0 = none :=
        searchSpan_none_of (content.drop e) 0 hnone2
      unfold updateGlobalBody
      simp only [hsearch, hsn, hsf]
      simp
  · intro hheadnone
    have hhn : searchSpan (matchHeadingAt code) content 0 = none :=
      searchSpan_none_of content 0 hheadnone
    constructor
    · intro fs fe hft
      obtain ⟨⟨n4, hm4, he4, hsle4⟩, hleast4⟩ := hft
      have hs4 : searchSpan matchFooterDelimAt content 0 = some (fs, fe) := by
        have := searchSpan_of_first content 0 fs n4 hsle4 hm4
          (fun d hd => hleast4 d hd)
        simpa [he4] using this
      unfold updateGlobalBody
      simp only [hhn, hs4]
    · intro hfn
      have hsf : searchSpan matchFooterDelimAt content 0 = none :=
        searchSpan_none_of content 0 hfn
      unfold updateGlobalBody
      simp only [hhn, hsf]
      simp

/-- Witness for the amended claim C5: in the counterexample document the
entry is inserted at position 15, before the next `##` heading and after
the earlier footer delimiter; and in a document with no `ABC` heading a
new course section is inserted before the footer delimiter at
position 2. -/
theorem updateGlobalBody_insertion_witness :
    (updateGlobalBody ['A', 'B', 'C', '1', '2', '3'] ['-', ' ', 'W']
        ['#', '#', ' ', 'A', 'B', 'C', '1', '2', '3', '\n', '-', '-', '-', '\n', 'X', '\n',
          '#', '#', ' ', 'D', 'E', 'F', '4', '5', '6', '\n'] =
      (['#', '#', ' ', 'A', 'B', 'C', '1', '2', '3', '\n', '-', '-', '-', '\n', 'X', '\n',
          '#', '#', ' ', 'D', 'E', 'F', '4', '5', '6', '\n'] : List Char).take (9 + 6) ++
        '\n' :: ['-', ' ', 'W'] ++
        (['#', '#', ' ', 'A', 'B', 'C', '1', '2', '3', '\n', '-', '-', '-', '\n', 'X', '\n',
          '#', '#', ' ', 'D', 'E', 'F', '4', '5', '6', '\n'] : List Char).drop (9 + 6)) ∧
    (updateGlobalBody ['A', 'B', 'C'] ['-', ' ', 'W']
        ['X', '\n', '\n', '-', '-', '-', '\n', 'F', '\n'] =
      (['X', '\n', '\n', '-', '-', '-', '\n', 'F', '\n'] : List Char).take 2 ++
        ('\n' :: '#' :: '#' :: ' ' :: ['A', 'B', 'C'] ++ '\n' :: ['-', ' ', 'W'] ++ ['\n']) ++
        (['X', '\n', '\n', '-', '-', '-', '\n', 'F', '\n'] : List Char).drop 2) :=
  ⟨((updateGlobalBody_insertion ['A', 'B', 'C', '1', '2', '3'] ['-', ' ', 'W']
      ['#', '#', ' ', 'A', 'B', 'C', '1', '2', '3', '\n', '-', '-', '-', '\n', 'X', '\n',
        '#', '#', ' ', 'D', 'E', 'F', '4', '5', '6', '\n']).1 0 9
      ⟨⟨9, by decide, rfl, by decide⟩, fun i hi => absurd hi (Nat.not_lt_zero i)⟩).1 6 11
    ⟨⟨5, by decide, rfl, by decide⟩, by decide⟩,
   ((updateGlobalBody_insertion ['A', 'B', 'C'] ['-', ' ', 'W']
      ['X', '\n', '\n', '-', '-', '-', '\n', 'F', '\n']).2
      (searchSpan_none_all ['X', '\n', '\n', '-', '-', '-', '\n', 'F', '\n'] 0
        (by decide))).1 2 7
    ⟨⟨5, by decide, rfl, by decide⟩, by decide⟩⟩

/-! Claim C2: the footer substitution writes the recomputed counter. -/

theorem findOcc_append_first (m : List Char) :
    ∀ (A Z : List Char), (∀ i, i < A.length → leadsWith m (A.drop i ++ Z) = false) →
      leadsWith m Z = true → findOcc m (A ++ Z) = some A.length := by
  intro A
  induction A with
  | nil =>
      intro Z _ hz
      cases Z with
      | nil => simp [findOcc, hz]
      | cons z zs => simp [findOcc, hz]
  | cons c A' ih =>
      intro Z h hz
      have h0 : leadsWith m (c :: (A' ++ Z)) = false := by simpa using h 0 (by simp)
      simp only [List.cons_append, findOcc]
      rw [if_neg (by simp [h0])]
      rw [List.append_eq, ih Z (fun i hi => by simpa using h (i + 1) (by simpa using hi)) hz]
      simp

theorem lineSubGo_nl_head (m r : List Char) (hm : m ≠ []) (hnl : ∀ c ∈ m, ¬ c = '\n') :
    ∀ (f : Nat) (S : List Char), (S = [] ∨ ∃ u, S = '\n' :: u) →
      lineSubGo m r f S = [] ∨ ∃ u', lineSubGo m r f S = '\n' :: u' := by
  intro f S hS
  rcases hS with h1 | ⟨u, h2⟩
  · subst h1
    exact Or.inl (lineSubGo_nil m r hm f)
  · subst h2
    cases f with
    | zero => exact Or.inr ⟨u, rfl⟩
    | succ f' =>
        have hnolead : leadsWith m ('\n' :: u) = false := by
          cases m with
          | nil => exact absurd rfl hm
          | cons a b => exact leadsWith_head_ne (hnl a (by simp))
        simp only [lineSubGo, findOcc, hnolead]
        rw [if_neg (by simp)]
        cases hocc : findOcc m u with
        | none => exact Or.inr ⟨u, rfl⟩
        | some j' =>
            simp only [Option.map_some']
            exact Or.inr ⟨_, rfl⟩

theorem afterMarkerLine_lineSub (m s cs : List Char) (hm : m ≠ [])
    (hnl : ∀ c ∈ m, ¬ c = '\n')
    (hov : ∀ k, k < m.length → 0 < k → leadsWith (m.drop k) m = false)
    (hs : ∀ c ∈ s, (c == '\n') = false)
    (hocc : (findOcc m cs).isSome = true) :
    afterMarkerLine m (lineSub m (m ++ s) cs) = some s := by
  cases hocc' : findOcc m cs with
  | none => rw [hocc'] at hocc; simp at hocc
  | some j =>
      cases cs with
      | nil =>
          rw [show findOcc m ([] : List Char) = none from by
            simp [findOcc, leadsWith_nil_false hm]] at hocc'
          exact Option.noConfusion hocc'
      | cons c t =>
          unfold lineSub
          simp only [List.length_cons, lineSubGo, hocc']
          set A := (c :: t).take j with hA
          set L' := lineSubGo m (m ++ s) t.length (skipLine m ((c :: t).drop j)) with hL
          have hAlen : A.length ≤ j := by
            rw [hA]
            simp
          have hAdrop : ∀ i, i ≤ A.length → A.drop i ++ (c :: t).drop j = (c :: t).drop i := by
            intro i hi
            have h1 : (c :: t) = A ++ (c :: t).drop j := by
              rw [hA, List.take_append_drop]
            conv_rhs => rw [h1]
            rw [List.drop_append_of_le_length hi]
          have hAi : ∀ i, i < A.length →
              leadsWith m (A.drop i ++ ((m ++ s) ++ L')) = false := by
            intro i hi
            by_contra hcon
            have htrue : leadsWith m (A.drop i ++ ((m ++ s) ++ L')) = true := by
              cases hv : leadsWith m (A.drop i ++ ((m ++ s) ++ L')) with
              | true => rfl
              | false => exact absurd hv hcon
            by_cases hcase : m.length ≤ (A.drop i).length
            · rw [leadsWith_left (A.drop i) _ hcase] at htrue
              have hext : leadsWith m ((c :: t).drop i) = true := by
                rw [← hAdrop i (by omega)]
                rw [leadsWith_left (A.drop i) _ hcase]
                exact htrue
              have := findOcc_least hocc' i (by omega)
              rw [hext] at this
              exact Bool.noConfusion this
            · have hlen : (A.drop i).length < m.length := by omega
              rw [leadsWith_split (A.drop i) _ hlen] at htrue
              have h2 := (Bool.and_eq_true_iff.mp htrue).2
              have hklen : (A.drop i).length = A.length - i := by simp
              have hk0 : 0 < A.length - i := by omega
              have hkm : A.length - i < m.length := by omega
              rw [hklen] at h2
              rw [show (m ++ s) ++ L' = m ++ (s ++ L') from by simp] at h2
              rw [leadsWith_left m (s ++ L') (by simp [Nat.sub_le])] at h2
              have := hov (A.length - i) hkm hk0
              rw [h2] at this
              exact Bool.noConfusion this
          have hout : findOcc m (A ++ ((m ++ s) ++ L')) = some A.length :=
            findOcc_append_first m A ((m ++ s) ++ L') hAi
              (by rw [show (m ++ s) ++ L' = m ++ (s ++ L') from by simp]
                  exact leadsWith_append m (s ++ L'))
          unfold afterMarkerLine
          rw [List.append_assoc A (m ++ s) L']
          rw [hout]
          simp only [Option.map_some', Option.some_inj]
          rw [List.drop_left]
          rw [show (m ++ s) ++ L' = m ++ (s ++ L') from by simp]
          rw [List.drop_left]
          have hL'head : L' = [] ∨ ∃ u', L' = '\n' :: u' := by
            rw [hL]
            apply lineSubGo_nl_head m (m ++ s) hm hnl
            unfold skipLine
            rcases @dropWhile_head (fun d => !(d == '\n')) (((c :: t).drop j).drop m.length)
              with h1 | ⟨d, u, h2, h3⟩
            · exact Or.inl h1
            · refine Or.inr ⟨u, ?_⟩
              have hd : d = '\n' := by
                have : (d == '\n') = true := by simpa using h3
                exact beq_iff_eq.mp this
              rw [h2, hd]
          rw [tw_append_of_all L' (fun c hc => by simp [hs c hc])]
          rcases hL'head with h1 | ⟨u', h2⟩
          · simp [h1]
          · rw [h2]
            simp [List.takeWhile_cons]

/-- Claim C2: the *Total Readings* footer counter written by
`_update_footer` equals the number of `### Week` entry blocks of the
post-insertion content passed to it — the counter is recomputed from the
current body, never read from or incremented past its previous value.
The hypothesis states that the counter marker is still present after the
*Last Updated* rewrite (a document whose counter line was not clobbered
by a malformed footer). -/
theorem updateFooter_counter_recount :
    ∀ (content today : List Char),
      containsSub trMarker (lineSub luMarker (luMarker ++ ' ' :: today) content) = true →
      afterMarkerLine trMarker (updateFooter today content) =
        some (' ' :: natDigits (countWeekHeadings content)) := by
  intro content today h
  unfold updateFooter
  apply afterMarkerLine_lineSub
  · decide
  · decide
  · decide
  · intro c hc
    rcases List.mem_cons.mp hc with h1 | h2
    · rw [h1]; decide
    · have hall := natDigits_digits (countWeekHeadings content)
      have hd : isDigitChar c = true := List.all_eq_true.mp hall c h2
      exact digit_ne_nl hd
  · exact h

/-- Witness for claim C2 at a concrete course master holding one
`### Week` block and a stale counter of 9. -/
theorem updateFooter_counter_recount_witness :
    afterMarkerLine trMarker
        (updateFooter ['d']
          (['#', '#', '#', ' ', 'W', 'e', 'e', 'k', ' ', '1', ':', ' ', 'a', '\n',
            '-', '-', '-', '\n'] ++ luMarker ++ [' ', 'x', '\n'] ++ trMarker ++
            [' ', '9', '\n'])) =
      some (' ' :: natDigits (countWeekHeadings
        (['#', '#', '#', ' ', 'W', 'e', 'e', 'k', ' ', '1', ':', ' ', 'a', '\n',
          '-', '-', '-', '\n'] ++ luMarker ++ [' ', 'x', '\n'] ++ trMarker ++
          [' ', '9', '\n']))) :=
  updateFooter_counter_recount
    (['#', '#', '#', ' ', 'W', 'e', 'e', 'k', ' ', '1', ':', ' ', 'a', '\n',
      '-', '-', '-', '\n'] ++ luMarker ++ [' ', 'x', '\n'] ++ trMarker ++ [' ', '9', '\n'])
    ['d'] (by decide)

/-! Claim C6: shape facts about the heading matchers. -/

theorem tw_le {q : Char → Bool} (l : List Char) : (l.takeWhile q).length ≤ l.length := by
  have h := congrArg List.length (List.takeWhile_append_dropWhile q l)
  simp only [List.length_append] at h
  omega

theorem headingTrue_shape {code s : List Char} (h : headingTrue code s = true) :
    ∃ t, s = '#' :: '#' :: t := by
  unfold headingTrue matchHeadingAt at h
  split at h
  · rename_i rest
    exact ⟨rest, rfl⟩
  · simp at h

theorem headingTrue_eq_false {code s : List Char} (h : ∀ t, s ≠ '#' :: '#' :: t) :
    headingTrue code s = false := by
  cases hv : headingTrue code s with
  | false => rfl
  | true =>
      obtain ⟨t, ht⟩ := headingTrue_shape hv
      exact absurd ht (h t)

theorem headingTrue_false_head {code s : List Char} {c : Char} (hh : s.head? = some c)
    (hc : ¬ c = '#') : headingTrue code s = false := by
  apply headingTrue_eq_false
  intro t ht
  rw [ht] at hh
  simp at hh
  exact hc hh.symm

theorem headingTrue_cons_hash (code rest : List Char) :
    headingTrue code ('#' :: '#' :: rest) =
      (findGreedyK code rest ((rest.takeWhile isWsChar).length)).isSome := by
  unfold headingTrue matchHeadingAt
  simp

theorem findGreedyK_isSome (code rest : List Char) :
    ∀ (w : Nat), (findGreedyK code rest w).isSome = true ↔
      ∃ k, 1 ≤ k ∧ k ≤ w ∧ leadsWith code (rest.drop k) = true := by
  intro w
  induction w with
  | zero =>
      simp only [findGreedyK]
      constructor
      · intro h; simp at h
      · intro ⟨k, h1, h2, _⟩; omega
  | succ w' ih =>
      simp only [findGreedyK]
      by_cases hl : leadsWith code (rest.drop (w' + 1)) = true
      · rw [if_pos hl]
        simp only [Option.isSome_some, true_iff]
        exact ⟨w' + 1, by omega, by omega, hl⟩
      · rw [if_neg hl]
        rw [ih]
        constructor
        · intro ⟨k, h1, h2, h3⟩; exact ⟨k, h1, by omega, h3⟩
        · intro ⟨k, h1, h2, h3⟩
          refine ⟨k, h1, ?_, h3⟩
          rcases Nat.lt_or_ge k (w' + 1) with hlt | hge
          · omega
          · have : k = w' + 1 := by omega
            rw [this] at h3
            exact absurd h3 hl

theorem findGreedyK_some {code rest : List Char} :
    ∀ {w k : Nat}, findGreedyK code rest w = some k →
      1 ≤ k ∧ k ≤ w ∧ leadsWith code (rest.drop k) = true := by
  intro w
  induction w with
  | zero => intro k h; exact Option.noConfusion h
  | succ w' ih =>
      intro k h
      simp only [findGreedyK] at h
      by_cases hl : leadsWith code (rest.drop (w' + 1)) = true
      · rw [if_pos hl] at h
        simp only [Option.some_inj] at h
        subst h
        exact ⟨by omega, by omega, hl⟩
      · rw [if_neg hl] at h
        obtain ⟨h1, h2, h3⟩ := ih h
        exact ⟨h1, by omega, h3⟩

theorem matchHeadingAt_length {code s : List Char} {n : Nat}
    (h : matchHeadingAt code s = some n) : n ≤ s.length := by
  unfold matchHeadingAt at h
  split at h
  · rename_i rest
    cases hg : findGreedyK code rest ((rest.takeWhile isWsChar).length) with
    | none => rw [hg] at h; simp at h
    | some k =>
        rw [hg] at h
        simp only [Option.map_some', Option.some_inj] at h
        obtain ⟨h1, h2, h3⟩ := findGreedyK_some hg
        have hcl := leadsWith_length h3
        have hk : k ≤ rest.length := by
          have := @tw_le isWsChar rest
          omega
        have : code.length ≤ rest.length - k := by
          simpa using hcl
        simp only [List.length_cons]
        omega
  · exact Option.noConfusion h

theorem matchNextSectionAt_shape {s : List Char} {n : Nat}
    (h : matchNextSectionAt s = some n) : ∃ t, s = '\n' :: '#' :: '#' :: t := by
  unfold matchNextSectionAt at h
  split at h
  · rename_i rest
    exact ⟨rest, rfl⟩
  · exact Option.noConfusion h

theorem matchNextSectionAt_length {s : List Char} {n : Nat}
    (h : matchNextSectionAt s = some n) : n ≤ s.length := by
  unfold matchNextSectionAt at h
  split at h
  · rename_i rest
    have h' : (match rest.drop ((rest.takeWhile isWsChar).length) with
        | c :: _ =>
            if (decide (1 ≤ (rest.takeWhile isWsChar).length) && isUpperChar c) = true then
              some (3 + (rest.takeWhile isWsChar).length + 1)
            else none
        | [] => none) = some n := h
    clear h
    split at h'
    · rename_i c t hdrop
      split at h'
      · simp only [Option.some_inj] at h'
        have hw := @tw_le isWsChar rest
        have hlen : (rest.drop ((rest.takeWhile isWsChar).length)).length =
            rest.length - (rest.takeWhile isWsChar).length := by simp
        rw [hdrop] at hlen
        simp only [List.length_cons] at hlen
        simp only [List.length_cons]
        omega
      · exact Option.noConfusion h'
    · exact Option.noConfusion h'
  · exact Option.noConfusion h

theorem matchFooterDelimAt_shape {s : List Char} {n : Nat}
    (h : matchFooterDelimAt s = some n) : ∃ t, s = '\n' :: '-' :: '-' :: '-' :: '\n' :: t := by
  unfold matchFooterDelimAt at h
  split at h
  · rename_i hl
    obtain ⟨rest, hr⟩ := leadsWith_ex hl
    exact ⟨rest, by simpa using hr⟩
  · exact Option.noConfusion h

theorem matchFooterDelimAt_length {s : List Char} {n : Nat}
    (h : matchFooterDelimAt s = some n) : n ≤ s.length := by
  unfold matchFooterDelimAt at h
  split at h
  · rename_i hl
    have := leadsWith_length hl
    simp only [Option.some_inj] at h
    subst h
    simpa using this
  · exact Option.noConfusion h

theorem alnum_ne_star {c : Char} (h : isAlnumChar c = true) : ¬ c = '*' := by
  intro he
  subst he
  simp [isAlnumChar, isAlphaChar, isUpperChar, isLowerChar, isDigitChar] at h

theorem alnum_not_ws {c : Char} (h : isAlnumChar c = true) : isWsChar c = false := by
  cases hv : isWsChar c with
  | false => rfl
  | true =>
      exfalso
      have hc : c = ' ' ∨ c = '\t' ∨ c = '\n' ∨ c = '\r' ∨
          c = Char.ofNat 11 ∨ c = Char.ofNat 12 := by
        simpa [isWsChar, beq_iff_eq, or_assoc] using hv
      rcases hc with h1 | h1 | h1 | h1 | h1 | h1 <;> (subst h1; revert h; decide)

theorem digit_ne_hash {c : Char} (h : isDigitChar c = true) : ¬ c = '#' := by
  intro he
  subst he
  simp [isDigitChar] at h

theorem leadsWith_false_of_heads {p z : List Char} {c0 d0 : Char}
    (hp : p.head? = some c0) (hz : z.head? = some d0) (hne : ¬ c0 = d0) :
    leadsWith p z = false := by
  cases p with
  | nil => simp at hp
  | cons a p' =>
      cases z with
      | nil => simp at hz
      | cons b z' =>
          simp only [List.head?_cons, Option.some_inj] at hp hz
          subst hp; subst hz
          exact leadsWith_head_ne hne

/-! Claim C6: the boundary machinery for heading counting. -/

theorem tw_length_ge {q : Char → Bool} :
    ∀ {l : List Char} (k : Nat), k ≤ l.length → (∀ c ∈ l.take k, q c = true) →
      k ≤ (l.takeWhile q).length := by
  intro l
  induction l with
  | nil =>
      intro k hk _
      simpa using hk
  | cons c t ih =>
      intro k hk h
      cases k with
      | zero => exact Nat.zero_le _
      | succ k' =>
          have hc : q c = true := h c (by simp)
          simp only [List.takeWhile_cons, hc, if_true, List.length_cons]
          have hih := ih k' (by simpa using hk) (fun d hd => h d (by
            simp only [List.take_succ_cons, List.mem_cons]
            exact Or.inr hd))
          omega

theorem alnum_ne_nl {c : Char} (h : isAlnumChar c = true) : ¬ c = '\n' := by
  intro he
  subst he
  simp [isAlnumChar, isAlphaChar, isUpperChar, isLowerChar, isDigitChar] at h

theorem headingTrue_not_hash {code s : List Char} (h : s.head? ≠ some '#') :
    headingTrue code s = false := by
  apply headingTrue_eq_false
  intro t ht
  rw [ht] at h
  simp at h

theorem headingTrue_hash_not_hash {code s : List Char} (h : s.head? ≠ some '#') :
    headingTrue code ('#' :: s) = false := by
  apply headingTrue_eq_false
  intro t ht
  have h2 : s = '#' :: t := by
    injection ht with _ h2
  rw [h2] at h
  simp at h

theorem blocked_nil {code : List Char} (hc : code ≠ []) : Blocked code [] := by
  refine ⟨?_, ?_, ?_⟩
  · intro j hj0 hjlt
    apply leadsWith_nil_false
    intro he
    have := congrArg List.length he
    simp only [List.length_drop, List.length_nil] at this
    omega
  · intro b hb
    simp only [List.takeWhile_nil, List.length_nil, Nat.le_zero] at hb
    subst hb
    simpa using leadsWith_nil_false hc
  · simp

theorem blocked_of_star {code Z : List Char} (hc : code ≠ [])
    (hall : ∀ c ∈ code, isAlnumChar c = true) (hz : Z.head? = some '*') :
    Blocked code Z := by
  obtain ⟨z', hz'⟩ : ∃ z', Z = '*' :: z' := by
    cases Z with
    | nil => simp at hz
    | cons a t =>
        simp only [List.head?_cons, Option.some_inj] at hz
        exact ⟨t, by rw [hz]⟩
  obtain ⟨c0, ct, hc0⟩ : ∃ c0 ct, code = c0 :: ct := by
    cases code with
    | nil => exact absurd rfl hc
    | cons a t => exact ⟨a, t, rfl⟩
  have hc0a : isAlnumChar c0 = true := hall c0 (by rw [hc0]; exact List.mem_cons_self c0 ct)
  subst hz'
  refine ⟨?_, ?_, ?_⟩
  · intro j hj0 hjlt
    cases hd : code.drop j with
    | nil =>
        exfalso
        have := congrArg List.length hd
        simp only [List.length_drop, List.length_nil] at this
        omega
    | cons d0 t0 =>
        have hd0mem : d0 ∈ code := (List.drop_sublist j code).subset (by
          rw [hd]
          exact List.mem_cons_self d0 t0)
        exact leadsWith_head_ne (alnum_ne_star (hall d0 hd0mem))
  · intro b hb
    have hst : isWsChar '*' = false := by decide
    have htw : ('*' :: z').takeWhile isWsChar = [] := by
      simp [List.takeWhile_cons, hst]
    rw [htw] at hb
    simp only [List.length_nil, Nat.le_zero] at hb
    subst hb
    simp only [List.drop_zero]
    rw [hc0]
    exact leadsWith_head_ne (alnum_ne_star hc0a)
  · intro hcontra
    simp only [List.head?_cons, Option.some_inj] at hcontra
    exact absurd hcontra (by decide)

theorem blocked_newline {code : List Char} (hc : code ≠ [])
    (hall : ∀ c ∈ code, isAlnumChar c = true) (z' : List Char)
    (hz : z' = [] ∨ ∃ c' t', z' = c' :: t' ∧ isWsChar c' = false ∧ isAlnumChar c' = false) :
    Blocked code ('\n' :: z') := by
  obtain ⟨c0, ct, hc0⟩ : ∃ c0 ct, code = c0 :: ct := by
    cases code with
    | nil => exact absurd rfl hc
    | cons a t => exact ⟨a, t, rfl⟩
  have hc0a : isAlnumChar c0 = true := hall c0 (by rw [hc0]; exact List.mem_cons_self c0 ct)
  refine ⟨?_, ?_, ?_⟩
  · intro j hj0 hjlt
    cases hd : code.drop j with
    | nil =>
        exfalso
        have := congrArg List.length hd
        simp only [List.length_drop, List.length_nil] at this
        omega
    | cons d0 t0 =>
        have hd0mem : d0 ∈ code := (List.drop_sublist j code).subset (by
          rw [hd]
          exact List.mem_cons_self d0 t0)
        exact leadsWith_head_ne (alnum_ne_nl (hall d0 hd0mem))
  · intro b hb
    have hnl : isWsChar '\n' = true := by decide
    have htw1 : ('\n' :: z').takeWhile isWsChar = '\n' :: z'.takeWhile isWsChar := by
      simp [List.takeWhile_cons, hnl]
    have htwz : z'.takeWhile isWsChar = [] := by
      rcases hz with h0 | ⟨c', t', hct, hws, _⟩
      · rw [h0]
        rfl
      · rw [hct]
        simp [List.takeWhile_cons, hws]
    rw [htw1, htwz] at hb
    simp only [List.length_cons, List.length_nil] at hb
    cases b with
    | zero =>
        simp only [List.drop_zero]
        rw [hc0]
        exact leadsWith_head_ne (alnum_ne_nl hc0a)
    | succ b' =>
        have hb1 : b' = 0 := by omega
        subst hb1
        simp only [List.drop_succ_cons, List.drop_zero]
        rcases hz with h0 | ⟨c', t', hct, _, hna⟩
        · rw [h0]
          exact leadsWith_nil_false hc
        · rw [hct, hc0]
          apply leadsWith_head_ne
          intro he
          rw [he] at hc0a
          rw [hna] at hc0a
          exact Bool.noConfusion hc0a
  · intro hcontra
    simp only [List.head?_cons, Option.some_inj] at hcontra
    exact absurd hcontra (by decide)

theorem searchSpan_le {mAt : List Char → Option Nat} :
    ∀ (cs : List Char) (i s e : Nat), searchSpan mAt cs i = some (s, e) → i ≤ s ∧ s ≤ e := by
  intro cs
  induction cs with
  | nil =>
      intro i s e h
      simp only [searchSpan] at h
      cases hm : mAt [] with
      | none => rw [hm] at h; exact Option.noConfusion h
      | some n =>
          rw [hm] at h
          simp only [Option.some_inj, Prod.mk.injEq] at h
          omega
  | cons c t ih =>
      intro i s e h
      simp only [searchSpan] at h
      cases hm : mAt (c :: t) with
      | some n =>
          rw [hm] at h
          simp only [Option.some_inj, Prod.mk.injEq] at h
          omega
      | none =>
          rw [hm] at h
          have := ih (i + 1) s e h
          omega

theorem natDigits_ne_hash (n : Nat) : ∀ c ∈ natDigits n, ¬ c = '#' := by
  intro c hcm
  exact digit_ne_hash (List.all_eq_true.mp (natDigits_digits n) c hcm)

theorem luMarker_ne_hash : ∀ c ∈ luMarker, ¬ c = '#' := by decide

theorem tcMarker_ne_hash : ∀ c ∈ tcMarker, ¬ c = '#' := by decide

theorem trMarker_ne_hash : ∀ c ∈ trMarker, ¬ c = '#' := by decide

theorem countHeadings_front_skip {code : List Char} (F Z : List Char)
    (h : ∀ c ∈ F, ¬ c = '#') :
    countQ (headingTrue code) (F ++ Z) = countQ (headingTrue code) Z := by
  apply countQ_front_false
  intro i hi
  cases hd : F.drop i with
  | nil =>
      exfalso
      have := congrArg List.length hd
      simp only [List.length_drop, List.length_nil] at this
      omega
  | cons c t =>
      have hcm : c ∈ F := (List.drop_sublist i F).subset (by
        rw [hd]
        exact List.mem_cons_self c t)
      simp only [List.cons_append]
      exact headingTrue_false_head rfl (h c hcm)

theorem tailsClean_step {m cs : List Char} {bad : Char → Bool} {j : Nat} (hm : m ≠ [])
    (hocc : findOcc m cs = some j) (hc : tailsClean m bad cs = true) :
    (lineTail m (cs.drop j)).all (fun c => !(bad c)) = true ∧
      tailsClean m bad (skipLine m (cs.drop j)) = true := by
  cases cs with
  | nil =>
      simp [findOcc, leadsWith_nil_false hm] at hocc
  | cons c t =>
      have hlt := skipLine_length_lt hm hocc
      unfold tailsClean at hc
      simp only [List.length_cons, tailsCleanGo, hocc, Bool.and_eq_true] at hc
      refine ⟨hc.1, ?_⟩
      unfold tailsClean
      rw [tailsCleanGo_fuel m bad hm (skipLine m ((c :: t).drop j)).length t.length
        (skipLine m ((c :: t).drop j)) (le_refl _) (by
          simp only [List.length_cons] at hlt
          omega)]
      exact hc.2

theorem heading_k_transfer {code X Y : List Char} (hX : Blocked code X)
    (u' : List Char)
    (h : ∃ k, 1 ≤ k ∧ k ≤ ((u' ++ X).takeWhile isWsChar).length ∧
        leadsWith code ((u' ++ X).drop k) = true) :
    ∃ k, 1 ≤ k ∧ k ≤ ((u' ++ Y).takeWhile isWsChar).length ∧
        leadsWith code ((u' ++ Y).drop k) = true := by
  obtain ⟨k, hk1, hk2, hk3⟩ := h
  have htwX : ((u' ++ X).takeWhile isWsChar).length ≤
      u'.length + (X.takeWhile isWsChar).length := by
    by_cases hws : ∀ c ∈ u', isWsChar c = true
    · rw [tw_append_of_all X hws]
      simp
    · rw [tw_append_of_break X hws]
      have := @tw_le isWsChar u'
      omega
  have hklt : k < u'.length := by
    rcases Nat.lt_or_ge k u'.length with h1 | h2
    · exact h1
    · exfalso
      have hb : k - u'.length ≤ (X.takeWhile isWsChar).length := by omega
      have hdropX : (u' ++ X).drop k = X.drop (k - u'.length) := by
        have hk : k = u'.length + (k - u'.length) := by omega
        conv_lhs => rw [hk]
        exact List.drop_append _
      rw [hdropX, hX.2.1 (k - u'.length) hb] at hk3
      exact Bool.noConfusion hk3
  have htk : ∀ c ∈ u'.take k, isWsChar c = true := by
    have h1 := tw_prefix_all k hk2
    intro c hc
    apply h1
    rw [List.take_append_of_le_length (Nat.le_of_lt hklt)]
    exact hc
  have hkY : k ≤ ((u' ++ Y).takeWhile isWsChar).length := by
    apply tw_length_ge
    · simp only [List.length_append]
      omega
    · intro c hc
      rw [List.take_append_of_le_length (Nat.le_of_lt hklt)] at hc
      exact htk c hc
  have hdX : (u' ++ X).drop k = u'.drop k ++ X :=
    List.drop_append_of_le_length (Nat.le_of_lt hklt)
  have hdY : (u' ++ Y).drop k = u'.drop k ++ Y :=
    List.drop_append_of_le_length (Nat.le_of_lt hklt)
  rw [hdX] at hk3
  have hlen : code.length ≤ (u'.drop k).length := by
    rcases Nat.lt_or_ge (u'.drop k).length code.length with hlt | hge
    · exfalso
      rw [leadsWith_split (u'.drop k) X hlt] at hk3
      simp only [Bool.and_eq_true] at hk3
      have hj0 : 0 < (u'.drop k).length := by
        simp only [List.length_drop]
        omega
      have h2 := hk3.2
      rw [hX.1 (u'.drop k).length hj0 hlt] at h2
      exact Bool.noConfusion h2
    · exact hge
  refine ⟨k, hk1, hkY, ?_⟩
  rw [hdY, leadsWith_left (u'.drop k) Y hlen]
  rw [leadsWith_left (u'.drop k) X hlen] at hk3
  exact hk3

theorem heading_eq_blocked {code X Y : List Char} (hX : Blocked code X) (hY : Blocked code Y) :
    ∀ u, headingTrue code (u ++ X) = headingTrue code (u ++ Y) := by
  intro u
  cases u with
  | nil =>
      simp only [List.nil_append]
      rw [headingTrue_not_hash hX.2.2, headingTrue_not_hash hY.2.2]
  | cons a u1 =>
      cases u1 with
      | nil =>
          simp only [List.cons_append, List.nil_append]
          by_cases ha : a = '#'
          · subst ha
            rw [headingTrue_hash_not_hash hX.2.2, headingTrue_hash_not_hash hY.2.2]
          · rw [@headingTrue_false_head code (a :: X) a rfl ha,
              @headingTrue_false_head code (a :: Y) a rfl ha]
      | cons b u' =>
          by_cases hab : a = '#' ∧ b = '#'
          · obtain ⟨ha, hb⟩ := hab
            subst ha
            subst hb
            simp only [List.cons_append]
            rw [headingTrue_cons_hash, headingTrue_cons_hash]
            have h1 := findGreedyK_isSome code (u' ++ X) (((u' ++ X).takeWhile isWsChar).length)
            have h2 := findGreedyK_isSome code (u' ++ Y) (((u' ++ Y).takeWhile isWsChar).length)
            cases hx : (findGreedyK code (u' ++ X)
                (((u' ++ X).takeWhile isWsChar).length)).isSome with
            | true =>
                have hk := @heading_k_transfer code X Y hX u' (h1.mp hx)
                exact (h2.mpr hk).symm
            | false =>
                cases hy : (findGreedyK code (u' ++ Y)
                    (((u' ++ Y).takeWhile isWsChar).length)).isSome with
                | false => rfl
                | true =>
                    have hk := @heading_k_transfer code Y X hY u' (h2.mp hy)
                    rw [h1.mpr hk] at hx
                    exact Bool.noConfusion hx
          · have hgen : ∀ (Z : List Char), headingTrue code (a :: b :: Z) = false := by
              intro Z
              apply headingTrue_eq_false
              intro t ht
              apply hab
              injection ht with ha hrest
              injection hrest with hb _
              exact ⟨ha, hb⟩
            simp only [List.cons_append]
            rw [hgen (u' ++ X), hgen (u' ++ Y)]

theorem countHeadings_lineSubGo {code m r : List Char}
    (hcode : code ≠ []) (hall : ∀ c ∈ code, isAlnumChar c = true)
    (hm : m ≠ []) (hmstar : m.head? = some '*') (hmhash : ∀ c ∈ m, ¬ c = '#')
    (hrstar : r.head? = some '*') (hrhash : ∀ c ∈ r, ¬ c = '#') :
    ∀ (f : Nat) (cs : List Char), cs.length ≤ f →
      tailsClean m (fun c => c == '#') cs = true →
      countQ (headingTrue code) (lineSubGo m r f cs) = countQ (headingTrue code) cs := by
  intro f
  induction f with
  | zero =>
      intro cs hf _
      have : cs = [] := by
        cases cs with
        | nil => rfl
        | cons a b => simp at hf
      subst this
      rfl
  | succ f' ih =>
      intro cs hf hclean
      cases hocc : findOcc m cs with
      | none => simp [lineSubGo, hocc]
      | some j =>
          obtain ⟨hC, hSclean⟩ := tailsClean_step hm hocc hclean
          have hlt := skipLine_length_lt hm hocc
          obtain ⟨rest, hrest⟩ := leadsWith_ex (findOcc_here hocc)
          have hdropm : (cs.drop j).drop m.length = rest := by
            rw [hrest]
            exact List.drop_left m rest
          have hCdef : lineTail m (cs.drop j) = rest.takeWhile (fun c => !(c == '\n')) := by
            unfold lineTail
            rw [hdropm]
          have hSdef : skipLine m (cs.drop j) = rest.dropWhile (fun c => !(c == '\n')) := by
            unfold skipLine
            rw [hdropm]
          have hrestCS : lineTail m (cs.drop j) ++ skipLine m (cs.drop j) = rest := by
            rw [hCdef, hSdef]
            exact List.takeWhile_append_dropWhile _ _
          have hcs : cs = cs.take j ++ (m ++ (lineTail m (cs.drop j) ++ skipLine m (cs.drop j))) := by
            rw [hrestCS, ← hrest, List.take_append_drop]
          have hXstar : (r ++ lineSubGo m r f' (skipLine m (cs.drop j))).head? = some '*' := by
            cases r with
            | nil => simp at hrstar
            | cons a t =>
                simp only [List.head?_cons, Option.some_inj] at hrstar
                simp [hrstar]
          have hYstar :
              (m ++ (lineTail m (cs.drop j) ++ skipLine m (cs.drop j))).head? = some '*' := by
            cases m with
            | nil => simp at hmstar
            | cons a t =>
                simp only [List.head?_cons, Option.some_inj] at hmstar
                simp [hmstar]
          have hbX := blocked_of_star hcode hall hXstar
          have hbY := blocked_of_star hcode hall hYstar
          have hcong := heading_eq_blocked hbX hbY
          have hid := countQ_append_congr (headingTrue code) _ _ hcong (cs.take j)
          have hXc : countQ (headingTrue code) (r ++ lineSubGo m r f' (skipLine m (cs.drop j))) =
              countQ (headingTrue code) (lineSubGo m r f' (skipLine m (cs.drop j))) :=
            countHeadings_front_skip r _ hrhash
          have hChash : ∀ c ∈ lineTail m (cs.drop j), ¬ c = '#' := by
            intro c hcm
            have := List.all_eq_true.mp hC c hcm
            simpa using this
          have hYc : countQ (headingTrue code)
              (m ++ (lineTail m (cs.drop j) ++ skipLine m (cs.drop j))) =
              countQ (headingTrue code) (skipLine m (cs.drop j)) := by
            rw [countHeadings_front_skip m _ hmhash, countHeadings_front_skip _ _ hChash]
          have hIH : countQ (headingTrue code) (lineSubGo m r f' (skipLine m (cs.drop j))) =
              countQ (headingTrue code) (skipLine m (cs.drop j)) :=
            ih (skipLine m (cs.drop j)) (by omega) hSclean
          simp only [lineSubGo, hocc]
          rw [List.append_assoc]
          conv_rhs => rw [hcs]
          omega

theorem countHeadings_lineSub {code m : List Char} (r : List Char)
    (hcode : code ≠ []) (hall : ∀ c ∈ code, isAlnumChar c = true)
    (hm : m ≠ []) (hmstar : m.head? = some '*') (hmhash : ∀ c ∈ m, ¬ c = '#')
    (hrstar : r.head? = some '*') (hrhash : ∀ c ∈ r, ¬ c = '#')
    {cs : List Char} (hclean : tailsClean m (fun c => c == '#') cs = true) :
    countHeadings code (lineSub m r cs) = countHeadings code cs := by
  unfold countHeadings lineSub
  exact countHeadings_lineSubGo hcode hall hm hmstar hmhash hrstar hrhash cs.length cs
    (le_refl _) hclean

/-- Claim C6: for a global master document that contains exactly one
`##\s+<code>` heading match for the entry's course code (a nonempty
alphanumeric code), and whose footer lines contain no `#` after their
markers at each of the three substitution stages, `_update_global_master`
inserts the formatted entry at exactly one position of the body — so the
text grows by exactly the one entry line — and the updated document
still contains exactly one heading match for that course: the insertion
is section-stable and never introduces a duplicate `##` heading. -/
theorem updateGlobalMaster_single_heading
    (today code content : List Char) (d : SummaryData)
    (hcode : code ≠ [])
    (hall : ∀ c ∈ code, isAlnumChar c = true)
    (hentry : ∀ c ∈ formatGlobalEntry d, ¬ c = '#')
    (htoday : ∀ c ∈ today, ¬ c = '#')
    (hcount : countHeadings code content = 1)
    (hclean1 : tailsClean luMarker (fun c => c == '#')
        (updateGlobalBody code (formatGlobalEntry d) content) = true)
    (hclean2 : tailsClean tcMarker (fun c => c == '#')
        (lineSub luMarker (luMarker ++ ' ' :: today)
          (updateGlobalBody code (formatGlobalEntry d) content)) = true)
    (hclean3 : tailsClean trMarker (fun c => c == '#')
        (lineSub tcMarker
          (tcMarker ++ ' ' :: natDigits (countFindall matchNextSectionAt
            (updateGlobalBody code (formatGlobalEntry d) content)))
          (lineSub luMarker (luMarker ++ ' ' :: today)
            (updateGlobalBody code (formatGlobalEntry d) content))) = true) :
    countHeadings code (updateGlobalMaster today code (formatGlobalEntry d) content) = 1 ∧
    ∃ ip, ip ≤ content.length ∧
      updateGlobalBody code (formatGlobalEntry d) content =
        content.take ip ++ '\n' :: formatGlobalEntry d ++ content.drop ip := by
  have hpos : 1 ≤ countHeadings code content := by omega
  obtain ⟨i0, hi0⟩ := countQ_exists (headingTrue code) content hpos
  have hsome : (searchSpan (matchHeadingAt code) content 0).isSome = true := by
    cases hv : searchSpan (matchHeadingAt code) content 0 with
    | some pr => rfl
    | none =>
        exfalso
        have hnone := searchSpan_none_all content 0 hv i0
        unfold headingTrue at hi0
        rw [hnone] at hi0
        exact Bool.noConfusion hi0
  obtain ⟨pr, hsearch⟩ := Option.isSome_iff_exists.mp hsome
  obtain ⟨s, e⟩ := pr
  have hle := searchSpan_le content 0 s e hsearch
  obtain ⟨_, hs1, hmatch, _⟩ := searchSpan_some content 0 s e hsearch
  simp only [Nat.sub_zero] at hs1 hmatch
  have hnlen := matchHeadingAt_length hmatch
  simp only [List.length_drop] at hnlen
  have hele : e ≤ content.length := by omega
  obtain ⟨erest, hent⟩ : ∃ t, formatGlobalEntry d = '-' :: t := by
    have hshape : (formatGlobalEntry d).head? = some '-' := rfl
    cases hg : formatGlobalEntry d with
    | nil =>
        rw [hg] at hshape
        exact Option.noConfusion hshape
    | cons a t =>
        rw [hg] at hshape
        simp only [List.head?_cons, Option.some_inj] at hshape
        exact ⟨t, by rw [hshape]⟩
  have hmain : ∃ ip, ip ≤ content.length ∧
      (updateGlobalBody code (formatGlobalEntry d) content =
        content.take ip ++ '\n' :: formatGlobalEntry d ++ content.drop ip) ∧
      Blocked code (content.drop ip) := by
    cases hns : searchSpan matchNextSectionAt (content.drop e) 0 with
    | some pr2 =>
        obtain ⟨ns, nse⟩ := pr2
        obtain ⟨_, hns1, hnsm, _⟩ := searchSpan_some (content.drop e) 0 ns nse hns
        simp only [Nat.sub_zero] at hns1 hnsm
        simp only [List.length_drop] at hns1
        refine ⟨e + ns, by omega, ?_, ?_⟩
        · unfold updateGlobalBody
          simp only [hsearch, hns]
        · have hdd : content.drop (e + ns) = (content.drop e).drop ns :=
            (List.drop_drop ns e content).symm
          obtain ⟨t2, ht2⟩ := matchNextSectionAt_shape hnsm
          rw [hdd, ht2]
          exact blocked_newline hcode hall ('#' :: '#' :: t2)
            (Or.inr ⟨'#', '#' :: t2, rfl, by decide, by decide⟩)
    | none =>
        cases hft : searchSpan matchFooterDelimAt (content.drop e) 0 with
        | some pr3 =>
            obtain ⟨fs, fe⟩ := pr3
            obtain ⟨_, hf1, hfm, _⟩ := searchSpan_some (content.drop e) 0 fs fe hft
            simp only [Nat.sub_zero] at hf1 hfm
            simp only [List.length_drop] at hf1
            refine ⟨e + fs, by omega, ?_, ?_⟩
            · unfold updateGlobalBody
              simp only [hsearch, hns, hft]
            · have hdd : content.drop (e + fs) = (content.drop e).drop fs :=
                (List.drop_drop fs e content).symm
              obtain ⟨t3, ht3⟩ := matchFooterDelimAt_shape hfm
              rw [hdd, ht3]
              exact blocked_newline hcode hall ('-' :: '-' :: '-' :: '\n' :: t3)
                (Or.inr ⟨'-', '-' :: '-' :: '\n' :: t3, rfl, by decide, by decide⟩)
        | none =>
            refine ⟨content.length, le_refl _, ?_, ?_⟩
            · unfold updateGlobalBody
              simp only [hsearch, hns, hft]
            · rw [List.drop_length]
              exact blocked_nil hcode
  obtain ⟨ip, hiple, hdoc, hB⟩ := hmain
  have hbX : Blocked code ('\n' :: (formatGlobalEntry d ++ content.drop ip)) := by
    rw [hent]
    simp only [List.cons_append]
    exact blocked_newline hcode hall ('-' :: (erest ++ content.drop ip))
      (Or.inr ⟨'-', erest ++ content.drop ip, rfl, by decide, by decide⟩)
  have hcong := heading_eq_blocked hbX hB
  have hid := countQ_append_congr (headingTrue code) _ _ hcong (content.take ip)
  have hskip : countQ (headingTrue code) ('\n' :: (formatGlobalEntry d ++ content.drop ip)) =
      countQ (headingTrue code) (content.drop ip) := by
    have hhf : ∀ c ∈ '\n' :: formatGlobalEntry d, ¬ c = '#' := by
      intro c hcm
      rcases List.mem_cons.mp hcm with h1 | h2
      · subst h1
        decide
      · exact hentry c h2
    have h2 := @countHeadings_front_skip code ('\n' :: formatGlobalEntry d)
      (content.drop ip) hhf
    simpa using h2
  have hbody : countHeadings code (updateGlobalBody code (formatGlobalEntry d) content) =
      countHeadings code content := by
    rw [hdoc]
    conv_rhs => rw [← List.take_append_drop ip content]
    unfold countHeadings
    rw [List.append_assoc, List.cons_append]
    omega
  refine ⟨?_, ⟨ip, hiple, hdoc⟩⟩
  have hrepl1 : ∀ c ∈ luMarker ++ ' ' :: today, ¬ c = '#' := by
    intro c hcm
    rcases List.mem_append.mp hcm with h1 | h2
    · exact luMarker_ne_hash c h1
    · rcases List.mem_cons.mp h2 with h3 | h4
      · subst h3
        decide
      · exact htoday c h4
  have hrepl2 : ∀ c ∈ tcMarker ++ ' ' :: natDigits (countFindall matchNextSectionAt
      (updateGlobalBody code (formatGlobalEntry d) content)), ¬ c = '#' := by
    intro c hcm
    rcases List.mem_append.mp hcm with h1 | h2
    · exact tcMarker_ne_hash c h1
    · rcases List.mem_cons.mp h2 with h3 | h4
      · subst h3
        decide
      · exact natDigits_ne_hash _ c h4
  have hrepl3 : ∀ c ∈ trMarker ++ ' ' :: natDigits (countDashWeek
      (updateGlobalBody code (formatGlobalEntry d) content)), ¬ c = '#' := by
    intro c hcm
    rcases List.mem_append.mp hcm with h1 | h2
    · exact trMarker_ne_hash c h1
    · rcases List.mem_cons.mp h2 with h3 | h4
      · subst h3
        decide
      · exact natDigits_ne_hash _ c h4
  have hgm : updateGlobalMaster today code (formatGlobalEntry d) content =
      lineSub trMarker (trMarker ++ ' ' :: natDigits (countDashWeek
        (updateGlobalBody code (formatGlobalEntry d) content)))
        (lineSub tcMarker (tcMarker ++ ' ' :: natDigits (countFindall matchNextSectionAt
          (updateGlobalBody code (formatGlobalEntry d) content)))
          (lineSub luMarker (luMarker ++ ' ' :: today)
            (updateGlobalBody code (formatGlobalEntry d) content))) := rfl
  rw [hgm]
  rw [@countHeadings_lineSub code trMarker (trMarker ++ ' ' :: natDigits (countDashWeek
      (updateGlobalBody code (formatGlobalEntry d) content)))
    hcode hall (by decide) rfl trMarker_ne_hash rfl hrepl3 _ hclean3]
  rw [@countHeadings_lineSub code tcMarker (tcMarker ++ ' ' :: natDigits
      (countFindall matchNextSectionAt
        (updateGlobalBody code (formatGlobalEntry d) content)))
    hcode hall (by decide) rfl tcMarker_ne_hash rfl hrepl2 _ hclean2]
  rw [@countHeadings_lineSub code luMarker (luMarker ++ ' ' :: today)
    hcode hall (by decide) rfl luMarker_ne_hash rfl hrepl1 _ hclean1]
  rw [hbody]
  exact hcount

set_option maxRecDepth 100000 in
/-- Witness for claim C6: a concrete global master with one `## ABC123`
section; after the update the course heading still occurs exactly once
and the body insertion is a single entry line. -/
theorem updateGlobalMaster_single_heading_witness :
    countHeadings ['A', 'B', 'C', '1', '2', '3']
        (updateGlobalMaster ['d'] ['A', 'B', 'C', '1', '2', '3']
          (formatGlobalEntry demoEntryData) demoGlobalDoc) = 1 ∧
    ∃ ip, ip ≤ demoGlobalDoc.length ∧
      updateGlobalBody ['A', 'B', 'C', '1', '2', '3'] (formatGlobalEntry demoEntryData)
          demoGlobalDoc =
        demoGlobalDoc.take ip ++ '\n' :: formatGlobalEntry demoEntryData ++
          demoGlobalDoc.drop ip :=
  updateGlobalMaster_single_heading ['d'] ['A', 'B', 'C', '1', '2', '3'] demoGlobalDoc
    demoEntryData (by decide) (by decide) (by decide) (by decide) (by decide) (by decide)
    (by decide) (by decide)

end ReadingSummarizer
